import Mathlib

/-!
Verification of the serena-rs symbolic code editor (src/serena-mcp).

File contents are modelled as `List Char`.  Offsets inside a file are
character positions; since the Rust code only scans for ASCII delimiters
(`{`, `}`, `"`, `;`, `\n`, ...) and UTF-8 continuation bytes never collide
with ASCII, character positions are in order-preserving bijection with the
byte offsets the Rust code uses.  Wherever the Rust code takes the byte
LENGTH of a string value (`String::len`), the model uses `utf8Len`, the sum
of the UTF-8 sizes of the characters.
-/

namespace SerenaRS

set_option maxHeartbeats 1000000

/-- Character list of a Lean string literal. -/
def chars (s : String) : List Char := s.data

/-- Sum of UTF-8 byte sizes: models Rust `String::len` (a byte count). -/
def utf8Len (l : List Char) : Nat := (l.map Char.utf8Size).sum

/-- Left brace character, `\x7b`. -/
def lbrace : Char := '\x7b'

/-- Right brace character, `\x7d`. -/
def rbrace : Char := '\x7d'

/-! ## File line index (symbols.rs, `FileLines`) -/

/-- One line record: byte offset of the first byte, offset one past the
terminator, and the text without the trailing newline
(symbols.rs `LineRecord`; `end` is renamed `stop`). -/
structure LineRecord where
  start : Nat
  stop : Nat
  text : List Char
  deriving DecidableEq, Repr

instance : Inhabited LineRecord := ⟨⟨0, 0, []⟩⟩

/-- Rust `str::split_inclusive('\n')` on a non-empty string: pieces keep
their trailing newline; the last piece may lack one. -/
def splitInclusive : List Char → List (List Char)
  | [] => []
  | c :: rest =>
      if c = '\n' then ['\n'] :: splitInclusive rest
      else
        match splitInclusive rest with
        | [] => [[c]]
        | p :: ps => (c :: p) :: ps

/-- Rust `str::trim_end_matches('\n')`: drop every trailing newline. -/
def trimEndNl : List Char → List Char
  | [] => []
  | c :: rest =>
      match trimEndNl rest with
      | [] => if c = '\n' then [] else [c]
      | r => c :: r

/-- Build the line records from the split pieces, accumulating offsets
(the loop body of `FileLines::new`). -/
def buildRecords (offset : Nat) : List (List Char) → List LineRecord
  | [] => []
  | p :: ps =>
      { start := offset, stop := offset + p.length, text := trimEndNl p }
        :: buildRecords (offset + p.length) ps

/-- The sorted array of line-start offsets kept alongside the records. -/
def startsOf (offset : Nat) : List (List Char) → List Nat
  | [] => []
  | p :: ps => offset :: startsOf (offset + p.length) ps

/-- The line index of a file (symbols.rs `FileLines`). -/
structure FileLines where
  records : List LineRecord
  starts : List Nat
  deriving DecidableEq, Repr

/-- `FileLines::new`.  The final `if !content.ends_with('\n')` adjustment in
the source sets the last record's `end` to `content.len()`, which it already
equals (the offsets cover the file contiguously), so it is not repeated
here. -/
def fileLinesNew (content : List Char) : FileLines :=
  if content = [] then { records := [], starts := [] }
  else
    { records := buildRecords 0 (splitInclusive content)
      starts := startsOf 0 (splitInclusive content) }

/-- Number of lines (`FileLines::len`). -/
def linesLen (fl : FileLines) : Nat := fl.records.length

/-- `FileLines::line_index`: binary search on the sorted starts returns the
largest index whose start is `≤ offset` (both the `Ok` and the
`Err(idx).saturating_sub(1)` arm compute exactly this on the strictly
increasing starts array). -/
def lineIndexOf (fl : FileLines) (o : Nat) : Nat :=
  (fl.starts.takeWhile (fun s => decide (s ≤ o))).length - 1

/-- `FileLines::text`. -/
def lineText (fl : FileLines) (i : Nat) : List Char :=
  (fl.records.getD i default).text

/-- `FileLines::bounds`. -/
def lineBounds (fl : FileLines) (i : Nat) : Nat × Nat :=
  let r := fl.records.getD i default
  (r.start, r.stop)

/-- Whether the content ends with a newline. -/
def endsWithNl (l : List Char) : Bool := decide (l.getLast? = some '\n')

/-- The reconstruction described by the spec: every record contributes
`text ++ "\n"`, except that the final record contributes only `text`
when the content does not end with a newline. -/
def reconstructTexts : List (List Char) → Bool → List Char
  | [], _ => []
  | t :: ts, endsNl =>
      match ts with
      | [] => t ++ (if endsNl then ['\n'] else [])
      | _ :: _ => t ++ '\n' :: reconstructTexts ts endsNl

/-! ### Round-trip lemmas -/

theorem buildRecords_map_text (off : Nat) (ps : List (List Char)) :
    (buildRecords off ps).map LineRecord.text = ps.map trimEndNl := by
  induction ps generalizing off with
  | nil => rfl
  | cons p ps ih => simp [buildRecords, ih]

theorem splitInclusive_eq_nil {s : List Char} :
    splitInclusive s = [] ↔ s = [] := by
  constructor
  · intro h
    cases s with
    | nil => rfl
    | cons c rest =>
        by_cases hc : c = '\n'
        · simp [splitInclusive, hc] at h
        · simp only [splitInclusive, if_neg hc] at h
          cases hsp : splitInclusive rest with
          | nil => rw [hsp] at h; simp at h
          | cons p ps => rw [hsp] at h; simp at h
  · intro h; subst h; rfl

theorem trimEndNl_cons_ne {c : Char} (hc : c ≠ '\n') (p : List Char) :
    trimEndNl (c :: p) = c :: trimEndNl p := by
  cases h : trimEndNl p with
  | nil => simp [trimEndNl, h, hc]
  | cons r rs => simp [trimEndNl, h]

theorem reconstructTexts_cons_head (c : Char) (t : List Char)
    (ts : List (List Char)) (e : Bool) :
    reconstructTexts ((c :: t) :: ts) e = c :: reconstructTexts (t :: ts) e := by
  cases ts with
  | nil => simp [reconstructTexts]
  | cons u us => simp [reconstructTexts]

theorem endsWithNl_cons (c : Char) (rest : List Char) :
    endsWithNl (c :: rest) =
      (if rest = [] then decide (c = '\n') else endsWithNl rest) := by
  cases rest with
  | nil => simp [endsWithNl]
  | cons d ds => simp [endsWithNl, List.getLast?_cons_cons]

theorem reconstruct_splitInclusive (c : List Char) :
    reconstructTexts ((splitInclusive c).map trimEndNl) (endsWithNl c) = c := by
  induction c with
  | nil => rfl
  | cons ch rest ih =>
      by_cases hch : ch = '\n'
      · subst hch
        simp only [splitInclusive, if_pos rfl]
        cases hr : rest with
        | nil =>
            rfl
        | cons d ds =>
            rw [← hr]
            have hrne : rest ≠ [] := by rw [hr]; simp
            have hsp : splitInclusive rest ≠ [] := by
              intro h; exact hrne (splitInclusive_eq_nil.mp h)
            cases hsp2 : splitInclusive rest with
            | nil => exact absurd hsp2 hsp
            | cons p ps =>
                have : trimEndNl ['\n'] = ([] : List Char) := by rfl
                simp only [List.map_cons, this, reconstructTexts]
                rw [endsWithNl_cons, if_neg hrne]
                have := ih
                rw [hsp2] at this
                simp only [List.map_cons] at this
                exact congrArg (List.cons '\n') this
      · simp only [splitInclusive, if_neg hch]
        cases hsp : splitInclusive rest with
        | nil =>
            have hrest : rest = [] := splitInclusive_eq_nil.mp hsp
            subst hrest
            simp [reconstructTexts, trimEndNl_cons_ne hch, trimEndNl,
              endsWithNl, hch]
        | cons p ps =>
            have hrne : rest ≠ [] := by
              intro h; subst h; simp [splitInclusive] at hsp
            simp only [List.map_cons]
            rw [trimEndNl_cons_ne hch p, reconstructTexts_cons_head]
            rw [endsWithNl_cons, if_neg hrne]
            have := ih
            rw [hsp] at this
            simp only [List.map_cons] at this
            rw [this]

/-- C6.  Building the line index and concatenating `record.text ++ "\n"`
for every record — the final record contributing only `record.text` when
the content does not end with a newline — reconstructs the content exactly,
and empty content yields zero records. -/
theorem C6_line_index_round_trip (c : List Char) :
    reconstructTexts ((fileLinesNew c).records.map LineRecord.text)
        (endsWithNl c) = c
      ∧ (c = [] → (fileLinesNew c).records = []) := by
  constructor
  · by_cases hc : c = []
    · subst hc; rfl
    · simp only [fileLinesNew, if_neg hc, buildRecords_map_text]
      exact reconstruct_splitInclusive c
  · intro h; subst h; rfl

/-! ## Character classes

The regex crate's `\s` and Rust's `char::is_whitespace` both denote the
Unicode `White_Space` property, a fixed list of 25 code points reproduced
here exactly.  The identifier classes in the symbol patterns are written
out as ASCII ranges in the source regexes and are modelled as such.
`\w`/`\b` of the regex crate are Unicode-aware; the model uses the ASCII
fragment, which agrees with the crate on all ASCII text. -/

/-- Unicode `White_Space`: the character class `\s` and `char::is_whitespace`. -/
def isRegexSpace (c : Char) : Bool :=
  c = ' ' || c = '\t' || c = '\n' || c = '\x0b' || c = '\x0c' || c = '\r' ||
  c.val = 0x85 || c.val = 0xA0 || c.val = 0x1680 ||
  (0x2000 ≤ c.val && c.val ≤ 0x200A) ||
  c.val = 0x2028 || c.val = 0x2029 || c.val = 0x202F || c.val = 0x205F ||
  c.val = 0x3000

/-- The class `[A-Za-z_]` used for the first identifier character. -/
def identStart (c : Char) : Bool :=
  ('A' ≤ c && c ≤ 'Z') || ('a' ≤ c && c ≤ 'z') || c = '_'

/-- The class `[A-Za-z0-9_]` used for subsequent identifier characters. -/
def identCont (c : Char) : Bool :=
  identStart c || ('0' ≤ c && c ≤ '9')

/-- Word character for `\b`/`\w` (ASCII fragment of the crate's class). -/
def wordCharB (c : Char) : Bool := identCont c

/-- Rust `str::trim_end` (trims Unicode whitespace). -/
def trimEnd (l : List Char) : List Char :=
  (l.reverse.dropWhile isRegexSpace).reverse

/-- `line.trim().is_empty()`: every character is whitespace. -/
def isBlank (l : List Char) : Bool := l.all isRegexSpace

/-- symbols.rs `leading_whitespace`: the longest run of `' '`/`'\t'` bytes. -/
def leadingWhitespace (l : List Char) : List Char :=
  l.takeWhile (fun c => c = ' ' || c = '\t')

/-! ## Rust `str::lines` (files.rs and the body formatters)

`lines` splits at `\n`, strips a `\r` from the end of each piece that was
terminated by `\n`, and omits a final empty piece. -/

/-- Full split on `'\n'` (always at least one piece). -/
def splitNl : List Char → List (List Char)
  | [] => [[]]
  | c :: rest =>
      if c = '\n' then [] :: splitNl rest
      else
        match splitNl rest with
        | [] => [[c]]
        | p :: ps => (c :: p) :: ps

/-- Strip one trailing carriage return. -/
def stripCR (l : List Char) : List Char :=
  if l.getLast? = some '\r' then l.dropLast else l

/-- Rust `str::lines`. -/
def rustLines (s : List Char) : List (List Char) :=
  let ps := splitNl s
  match ps.getLast? with
  | some [] => ps.dropLast.map stripCR
  | _ => ps.dropLast.map stripCR ++ [ps.getLastD []]

/-! ## Symbol extraction (symbols.rs, components C and D)

Each `(?m)^`-anchored pattern is modelled as a deterministic parser over the
suffix of the file starting at a line-start position.  The patterns' option
groups are each followed by a literal whose first character is never
whitespace and never begins the skipped alternative, so the local
greedy/fallback choice below coincides with the regex crate's leftmost-first
semantics on these patterns. -/

/-- A capture: the `indent` group, the `name` group, and the length of the
whole match in characters. -/
structure MatchCap where
  indent : List Char
  name : List Char
  len : Nat
  deriving DecidableEq, Repr

/-- Consume an exact literal. -/
def eatLit : List Char → List Char → Option (List Char)
  | [], w => some w
  | _ :: _, [] => Option.none
  | c :: cs, d :: w => if c = d then eatLit cs w else Option.none

/-- Consume `\s+` (at least one whitespace character, then greedily). -/
def eatSpaces1 (w : List Char) : Option (List Char) :=
  match w with
  | [] => Option.none
  | c :: rest =>
      if isRegexSpace c then some (rest.dropWhile isRegexSpace) else Option.none

/-- Capture `[A-Za-z_][A-Za-z0-9_]*`. -/
def eatIdent (w : List Char) : Option (List Char × List Char) :=
  match w with
  | [] => Option.none
  | c :: rest =>
      if identStart c then
        some (c :: rest.takeWhile identCont, rest.dropWhile identCont)
      else Option.none

/-- Consume `\([^)]*\)`. -/
def eatParens (w : List Char) : Option (List Char) :=
  match w with
  | '(' :: r =>
      match r.dropWhile (fun c => decide (c ≠ ')')) with
      | ')' :: r2 => some r2
      | _ => Option.none
  | _ => Option.none

/-- Consume `pub(?:\([^)]*\))?\s+`. -/
def eatPubPart (w : List Char) : Option (List Char) :=
  match eatLit (chars "pub") w with
  | Option.none => Option.none
  | some w1 => eatSpaces1 ((eatParens w1).getD w1)

/-- Consume `async\s+`. -/
def eatAsyncPart (w : List Char) : Option (List Char) :=
  match eatLit (chars "async") w with
  | Option.none => Option.none
  | some w1 => eatSpaces1 w1

/-- `RUST_FN_RE` after the `indent` group:
`(?:pub(?:\([^)]*\))?\s+)?(?:async\s+)?fn\s+(?P<name>[A-Za-z_][A-Za-z0-9_]*)`. -/
def rustFnAfter (w : List Char) : Option (List Char × List Char) :=
  let w1 := (eatPubPart w).getD w
  let w2 := (eatAsyncPart w1).getD w1
  match eatLit (chars "fn") w2 with
  | Option.none => Option.none
  | some w3 =>
      match eatSpaces1 w3 with
      | Option.none => Option.none
      | some w4 => eatIdent w4

/-- `RUST_STRUCT_RE`/`RUST_ENUM_RE`/`RUST_TRAIT_RE` after the `indent`
group: `(?:pub(?:\([^)]*\))?\s+)?KW\s+(?P<name>...)`. -/
def rustKwAfter (kw : List Char) (w : List Char) : Option (List Char × List Char) :=
  let w1 := (eatPubPart w).getD w
  match eatLit kw w1 with
  | Option.none => Option.none
  | some w2 =>
      match eatSpaces1 w2 with
      | Option.none => Option.none
      | some w3 => eatIdent w3

/-- Consume `<[^>]+>`. -/
def eatGenerics (w : List Char) : Option (List Char) :=
  match w with
  | '<' :: r =>
      match r with
      | [] => Option.none
      | c :: _ =>
          if c = '>' then Option.none
          else
            match r.dropWhile (fun c => decide (c ≠ '>')) with
            | '>' :: r2 => some r2
            | _ => Option.none
  | _ => Option.none

/-- The name class of `RUST_IMPL_RE`: `[A-Za-z0-9_:<>]`. -/
def implNameCont (c : Char) : Bool :=
  identCont c || c = ':' || c = '<' || c = '>'

/-- `RUST_IMPL_RE` after the `indent` group:
`impl(?:<[^>]+>)?\s+(?P<name>[A-Za-z_][A-Za-z0-9_:<>]*)`. -/
def rustImplAfter (w : List Char) : Option (List Char × List Char) :=
  match eatLit (chars "impl") w with
  | Option.none => Option.none
  | some w1 =>
      let w2 := (eatGenerics w1).getD w1
      match eatSpaces1 w2 with
      | Option.none => Option.none
      | some w3 =>
          match w3 with
          | [] => Option.none
          | c :: rest =>
              if identStart c then
                some (c :: rest.takeWhile implNameCont, rest.dropWhile implNameCont)
              else Option.none

/-- `PY_DEF_RE` after the `indent` group:
`(?:async\s+)?def\s+(?P<name>[A-Za-z_][A-Za-z0-9_]*)\s*\(`. -/
def pyDefAfter (w : List Char) : Option (List Char × List Char) :=
  let w1 := (eatAsyncPart w).getD w
  match eatLit (chars "def") w1 with
  | Option.none => Option.none
  | some w2 =>
      match eatSpaces1 w2 with
      | Option.none => Option.none
      | some w3 =>
          match eatIdent w3 with
          | Option.none => Option.none
          | some (nm, w4) =>
              match w4.dropWhile isRegexSpace with
              | '(' :: w5 => some (nm, w5)
              | _ => Option.none

/-- `PY_CLASS_RE` after the `indent` group:
`class\s+(?P<name>[A-Za-z_][A-Za-z0-9_]*)`. -/
def pyClassAfter (w : List Char) : Option (List Char × List Char) :=
  match eatLit (chars "class") w with
  | Option.none => Option.none
  | some w1 =>
      match eatSpaces1 w1 with
      | Option.none => Option.none
      | some w2 => eatIdent w2

/-- Run a pattern at a candidate position: the `(?P<indent>\s*)` group is
greedy, and the token after it is never whitespace, so no backtracking into
the indent is possible. -/
def runPat (p : List Char → Option (List Char × List Char)) (w : List Char) :
    Option MatchCap :=
  let ind := w.takeWhile isRegexSpace
  let rest := w.dropWhile isRegexSpace
  match p rest with
  | Option.none => Option.none
  | some (nm, rest2) =>
      some { indent := ind, name := nm, len := w.length - rest2.length }

/-- `captures_iter` of a `(?m)^`-anchored pattern: attempt the pattern at
every line-start position in ascending order, skipping positions covered by
an earlier match (non-overlapping leftmost matches).  `supp` counts the
remaining characters of the previous match during which matching is
suppressed. -/
def scanPat (pat : List Char → Option MatchCap) :
    List Char → Nat → Bool → Nat → List (Nat × MatchCap)
  | [], _, _, _ => []
  | c :: rest, pos, _, supp + 1 =>
      scanPat pat rest (pos + 1) (decide (c = '\n')) supp
  | c :: rest, pos, atStart, 0 =>
      if atStart then
        match pat (c :: rest) with
        | some m =>
            (pos, m) :: scanPat pat rest (pos + 1) (decide (c = '\n')) (m.len - 1)
        | Option.none => scanPat pat rest (pos + 1) (decide (c = '\n')) 0
      else scanPat pat rest (pos + 1) (decide (c = '\n')) 0

/-- All matches of one pattern over a file. -/
def scanMatches (pat : List Char → Option MatchCap) (content : List Char) :
    List (Nat × MatchCap) :=
  scanPat pat content 0 true 0

/-! ## Body location (symbols.rs, component D) -/

/-- A symbol's body extent (symbols.rs `BodyStyle`; `end` renamed `stop`). -/
inductive BodyStyle where
  | braces (start stop : Nat) (baseIndent innerIndent : List Char)
  | indented (start stop : Nat) (baseIndent indentUnit : List Char)
  | none
  deriving DecidableEq, Repr

/-- The combined loops of `find_brace_block` and `skip_string`, as a single
character-at-a-time state machine: `opened = some s` holds the body start
offset once the first brace has been passed, and `str? = some (q, esc)`
holds the active string delimiter and whether the next character is
escaped.  `skip_string`'s `index += 2` on a backslash is exactly the
escaped state. -/
def braceScan :
    List Char → Nat → Nat → Option Nat → Option (Char × Bool) →
      Option (Nat × Nat)
  | [], _, _, _, _ => Option.none
  | c :: rest, pos, depth, opened, some (q, esc) =>
      if esc then braceScan rest (pos + 1) depth opened (some (q, false))
      else if c = '\\' then braceScan rest (pos + 1) depth opened (some (q, true))
      else if c = q then braceScan rest (pos + 1) depth opened Option.none
      else braceScan rest (pos + 1) depth opened (some (q, false))
  | c :: rest, pos, depth, opened, Option.none =>
      match opened with
      | Option.none =>
          if c = lbrace then braceScan rest (pos + 1) 1 (some (pos + 1)) Option.none
          else if c = ';' then Option.none
          else if c = '"' || c = '\'' || c = '`' then
            braceScan rest (pos + 1) depth opened (some (c, false))
          else braceScan rest (pos + 1) depth opened Option.none
      | some st =>
          if c = lbrace then braceScan rest (pos + 1) (depth + 1) opened Option.none
          else if c = rbrace then
            (if depth = 1 then some (st, pos)
             else braceScan rest (pos + 1) (depth - 1) opened Option.none)
          else if c = '"' || c = '\'' || c = '`' then
            braceScan rest (pos + 1) depth opened (some (c, false))
          else braceScan rest (pos + 1) depth opened Option.none

/-- symbols.rs `find_brace_block`, scanning from `searchStart`. -/
def findBraceBlock (content : List Char) (searchStart : Nat) :
    Option (Nat × Nat) :=
  braceScan (content.drop searchStart) searchStart 0 Option.none Option.none

/-- symbols.rs `compute_inner_indent`: the leading whitespace of the first
non-blank line inside the braces that has any, else `base_indent` plus four
spaces. -/
def computeInnerIndent (content : List Char) (start stop : Nat)
    (baseIndent : List Char) : List Char :=
  let slice := (content.drop start).take (stop - start)
  match (rustLines slice).findSome? (fun l =>
      if isBlank l then Option.none
      else
        let ind := leadingWhitespace l
        if ind.isEmpty then Option.none else some ind) with
  | some ind => ind
  | Option.none => baseIndent ++ chars "    "

/-- symbols.rs `locate_brace_body`. -/
def locateBraceBody (content : List Char) (searchStart : Nat)
    (indent : List Char) : BodyStyle :=
  match findBraceBlock content searchStart with
  | some (s, e) => BodyStyle.braces s e indent (computeInnerIndent content s e indent)
  | Option.none => BodyStyle.none

/-- Byte-indexed slice start used by `derive_indent_unit`
(`inner_indent[base_indent.len()..]`); its inputs here are runs of ASCII
spaces/tabs, where byte and character positions coincide. -/
def utf8Drop : List Char → Nat → List Char
  | l, 0 => l
  | [], _ + 1 => []
  | c :: rest, n + 1 => utf8Drop rest (n + 1 - c.utf8Size)

/-- symbols.rs `derive_indent_unit`. -/
def deriveIndentUnit (innerIndent baseIndent : List Char) : List Char :=
  if utf8Len baseIndent < utf8Len innerIndent then
    utf8Drop innerIndent (utf8Len baseIndent)
  else if innerIndent.isEmpty then chars "    "
  else innerIndent

/-- The loop of `locate_python_body` over the lines after the declaration:
blank lines extend the body only once it has begun; the first non-blank
line indented at most as far as the declaration ends it. -/
def pyBodyLoop (baseLen : Nat) :
    List (Nat × List Char) → Option Nat → Option Nat → Option Nat × Option Nat
  | [], s, e => (s, e)
  | (idx, text) :: rest, s, e =>
      if isBlank text then
        pyBodyLoop baseLen rest s (if s.isSome then some idx else e)
      else
        let ind := leadingWhitespace text
        if utf8Len ind ≤ baseLen then (s, e)
        else pyBodyLoop baseLen rest (if s.isSome then s else some idx) (some idx)

/-- symbols.rs `locate_python_body`. -/
def locatePythonBody (fl : FileLines) (defLine : Nat) (baseIndent : List Char) :
    BodyStyle :=
  let items := ((List.range (linesLen fl)).drop (defLine + 1)).map
    (fun i => (i, lineText fl i))
  match pyBodyLoop (utf8Len baseIndent) items Option.none Option.none with
  | (some s, some e) =>
      BodyStyle.indented (lineBounds fl s).1 (lineBounds fl e).2 baseIndent
        (deriveIndentUnit (leadingWhitespace (lineText fl s)) baseIndent)
  | _ => BodyStyle.none

/-! ## Symbol records (symbols.rs `FileSymbol`, components C+E) -/

/-- symbols.rs `FileSymbol`. -/
structure FileSymbol where
  name : List Char
  kind : List Char
  signature : List Char
  line : Nat
  column : Nat
  body : BodyStyle
  deriving DecidableEq, Repr

instance : Inhabited FileSymbol :=
  ⟨⟨[], [], [], 0, 0, BodyStyle.none⟩⟩

/-- The loop body of `parse_brace_symbols` for one capture.  The
`unwrap_or_else(leading_whitespace ...)` fallback for a missing `indent`
group never fires (the group always participates) and is omitted. -/
def buildBraceSymbol (content : List Char) (fl : FileLines) (kind : List Char)
    (pm : Nat × MatchCap) : FileSymbol :=
  let lineIdx := lineIndexOf fl pm.1
  { name := pm.2.name
    kind := kind
    signature := trimEnd (lineText fl lineIdx)
    line := lineIdx + 1
    column := utf8Len pm.2.indent + 1
    body := locateBraceBody content (lineBounds fl lineIdx).2 pm.2.indent }

/-- symbols.rs `build_python_symbol` for one capture. -/
def buildPySymbol (fl : FileLines) (kind : List Char) (pm : Nat × MatchCap) :
    FileSymbol :=
  let lineIdx := lineIndexOf fl pm.1
  { name := pm.2.name
    kind := kind
    signature := trimEnd (lineText fl lineIdx)
    line := lineIdx + 1
    column := utf8Len pm.2.indent + 1
    body := locatePythonBody fl lineIdx pm.2.indent }

/-- Stable insertion for the by-line sort (Rust `sort_by_key` is stable). -/
def insertByLine (s : FileSymbol) : List FileSymbol → List FileSymbol
  | [] => [s]
  | t :: ts => if t.line < s.line then t :: insertByLine s ts else s :: t :: ts

/-- Stable sort by line number. -/
def sortByLine (l : List FileSymbol) : List FileSymbol :=
  l.foldr insertByLine []

/-- The `RUST_PATTERNS` table: matcher and kind label. -/
def rustPatterns : List ((List Char → Option MatchCap) × List Char) :=
  [(runPat rustFnAfter, chars "function"),
   (runPat (rustKwAfter (chars "struct")), chars "struct"),
   (runPat (rustKwAfter (chars "enum")), chars "enum"),
   (runPat (rustKwAfter (chars "trait")), chars "trait"),
   (runPat rustImplAfter, chars "impl")]

/-- The raw captures of a pattern table over a file, in pattern-major
order (the collection order of `parse_brace_symbols`). -/
def rawMatchesOf (pats : List ((List Char → Option MatchCap) × List Char))
    (content : List Char) : List ((Nat × MatchCap) × List Char) :=
  pats.flatMap (fun p => (scanMatches p.1 content).map (fun m => (m, p.2)))

/-- symbols.rs `parse_brace_symbols`. -/
def parseBraceSymbols (content : List Char) (fl : FileLines)
    (pats : List ((List Char → Option MatchCap) × List Char)) :
    List FileSymbol :=
  sortByLine ((rawMatchesOf pats content).map
    (fun mk => buildBraceSymbol content fl mk.2 mk.1))

/-- The raw captures of the two Python patterns, defs first. -/
def pyRawMatches (content : List Char) : List ((Nat × MatchCap) × List Char) :=
  (scanMatches (runPat pyDefAfter) content).map (fun m => (m, chars "function"))
    ++ (scanMatches (runPat pyClassAfter) content).map (fun m => (m, chars "class"))

/-- symbols.rs `parse_python_symbols`. -/
def parsePythonSymbols (content : List Char) (fl : FileLines) : List FileSymbol :=
  sortByLine ((pyRawMatches content).map (fun mk => buildPySymbol fl mk.2 mk.1))

/-- Language tag (symbols.rs `Language`). -/
inductive Language where
  | python
  | rust
  | typescript
  | javascript
  | go
  | java
  | csharp
  | generic
  deriving DecidableEq, Repr

/-- symbols.rs `extract_symbols`.  Only the Rust and Python pattern tables
are modelled; no claim below depends on the symbol patterns of the other
languages, whose extraction is not exercised. -/
def extractSymbols (content : List Char) (fl : FileLines) :
    Language → List FileSymbol
  | Language.python => parsePythonSymbols content fl
  | Language.rust => parseBraceSymbols content fl rustPatterns
  | _ => []

/-- symbols.rs `ParsedFile` (for an in-memory content). -/
structure ParsedFileM where
  language : Language
  content : List Char
  lines : FileLines
  symbols : List FileSymbol
  deriving DecidableEq, Repr

/-- `ParsedFile::from_path` after a successful read. -/
def parseFile (lang : Language) (content : List Char) : ParsedFileM :=
  let fl := fileLinesNew content
  { language := lang
    content := content
    lines := fl
    symbols := extractSymbols content fl lang }

/-! ## Name matching and the symbolic editor (symbols.rs, component E)

Rust `str::to_lowercase` is modelled character-wise with `Char.toLower`
(the ASCII fragment; they agree on ASCII text). -/

/-- Character-wise lowercasing. -/
def lowerList (l : List Char) : List Char := l.map Char.toLower

/-- Rust `str::contains(needle)`: the needle occurs as a contiguous
substring. -/
def containsSub (hay needle : List Char) : Bool :=
  match hay with
  | [] => needle.isEmpty
  | c :: rest => needle.isPrefixOf (c :: rest) || containsSub rest needle

/-- symbols.rs `symbol_name_matches`. -/
def symbolNameMatches (symbol query : List Char)
    (substring caseSensitive : Bool) : Bool :=
  if caseSensitive then
    if substring then containsSub symbol query else decide (symbol = query)
  else
    if substring then containsSub (lowerList symbol) (lowerList query)
    else decide (lowerList symbol = lowerList query)

/-- Decidable equality for `Except`. -/
def exceptDecEq {ε α : Type} [DecidableEq ε] [DecidableEq α] :
    (a b : Except ε α) → Decidable (a = b)
  | .error e, .error f =>
      if h : e = f then isTrue (by rw [h])
      else isFalse (by intro hh; cases hh; exact h rfl)
  | .error _, .ok _ => isFalse (by intro h; cases h)
  | .ok _, .error _ => isFalse (by intro h; cases h)
  | .ok x, .ok y =>
      if h : x = y then isTrue (by rw [h])
      else isFalse (by intro hh; cases hh; exact h rfl)

instance {ε α : Type} [DecidableEq ε] [DecidableEq α] :
    DecidableEq (Except ε α) := exceptDecEq

/-- The outcome of one tool call on one file: the JSON-RPC result and the
content written by the single `fs::write`, if the call reached it. -/
structure ToolOut (R : Type) where
  result : Except (List Char) R
  written : Option (List Char)
  deriving DecidableEq, Repr

/-- Whether an outcome is a JSON-RPC error. -/
def resultIsError {R : Type} (r : Except (List Char) R) : Bool :=
  match r with
  | .error _ => true
  | .ok _ => false

/-- The file content after the call: the written content, or the original
when nothing was written. -/
def fileAfter {R : Type} (orig : List Char) (out : ToolOut R) : List Char :=
  out.written.getD orig

/-- symbols.rs `ensure_trailing_newline`. -/
def ensureTrailingNewline (body : List Char) : List Char :=
  if endsWithNl body then body else body ++ ['\n']

/-- Rust `str::trim_matches('\n')`: drop newlines from both ends. -/
def trimMatchesNl (l : List Char) : List Char :=
  trimEndNl (l.dropWhile (fun c => c = '\n'))

/-- symbols.rs `format_brace_body`. -/
def formatBraceBody (body baseIndent innerIndent : List Char) : List Char :=
  let trimmed := trimMatchesNl body
  if trimmed.isEmpty then '\n' :: baseIndent
  else
    let ls := (rustLines trimmed).map (fun line =>
      let line := trimEnd line
      if line.isEmpty then innerIndent else innerIndent ++ line)
    '\n' :: (List.intercalate ['\n'] ls ++ '\n' :: baseIndent)

/-- symbols.rs `format_indented_body`. -/
def formatIndentedBody (body baseIndent indentUnit : List Char) : List Char :=
  let trimmed := trimMatchesNl body
  let indent := baseIndent ++ indentUnit
  if trimmed.isEmpty then indent ++ chars "pass" ++ ['\n']
  else
    let ls := (rustLines trimmed).map (fun line =>
      let clean := trimEnd line
      if clean.isEmpty then indent else indent ++ clean)
    List.intercalate ['\n'] ls ++ ['\n']

/-- `String::replace_range(start..stop, repl)`. -/
def replaceRange (content : List Char) (start stop : Nat) (repl : List Char) :
    List Char :=
  content.take start ++ repl ++ content.drop stop

/-- Arguments of `replace_symbol_body` after defaulting
(`case_sensitive.unwrap_or(true)` already applied). -/
structure ReplaceArgs where
  symbol : List Char
  newBody : List Char
  occurrence : Option Nat
  caseSensitive : Bool
  startLine : Option Nat
  endLine : Option Nat
  deriving DecidableEq, Repr

/-- The success payload of `replace_symbol_body`. -/
inductive ReplaceResp where
  | lineRange (startLine endLine : Nat)
  | symbolMode (name : List Char) (occurrence : Nat)
  deriving DecidableEq, Repr

/-- The candidate filter of `replace_symbol_body_tool`: note the literal
`false` passed for the substring flag in the source. -/
def replaceCandidates (symbols : List FileSymbol) (needle : List Char)
    (cs : Bool) : List FileSymbol :=
  symbols.filter (fun s => symbolNameMatches s.name needle false cs)

/-- The body-replacement arm of `replace_symbol_body_tool` for the chosen
target. -/
def replaceBodyAt (parsed : ParsedFileM) (a : ReplaceArgs)
    (target : FileSymbol) (occ : Nat) : ToolOut ReplaceResp :=
  let replacement := ensureTrailingNewline a.newBody
  match target.body with
  | BodyStyle.braces s e bi ii =>
      ⟨.ok (.symbolMode target.name occ),
       some (replaceRange parsed.content s e (formatBraceBody replacement bi ii))⟩
  | BodyStyle.indented s e bi iu =>
      ⟨.ok (.symbolMode target.name occ),
       some (replaceRange parsed.content s e (formatIndentedBody replacement bi iu))⟩
  | BodyStyle.none =>
      ⟨.error (chars "Symbol does not have a replaceable body"), Option.none⟩

/-- The handler of `replace_symbol_body_tool` after a successful parse. -/
def replaceSymbolBodyCore (parsed : ParsedFileM) (a : ReplaceArgs) :
    ToolOut ReplaceResp :=
  match a.startLine, a.endLine with
  | some sl, some el =>
      if el < sl then
        ⟨.error (chars "start_line must be <= end_line"), Option.none⟩
      else
        let si := sl - 1
        let ei := el - 1
        if linesLen parsed.lines ≤ si then
          ⟨.error (chars "start_line is outside the file range"), Option.none⟩
        else if linesLen parsed.lines ≤ ei then
          ⟨.error (chars "end_line is outside the file range"), Option.none⟩
        else
          ⟨.ok (.lineRange sl el),
           some (replaceRange parsed.content (lineBounds parsed.lines si).1
             (lineBounds parsed.lines ei).2 (ensureTrailingNewline a.newBody))⟩
  | _, _ =>
      let cands := sortByLine (replaceCandidates parsed.symbols a.symbol a.caseSensitive)
      if cands.isEmpty then
        ⟨.error (chars "No symbol with that name found"), Option.none⟩
      else
        match a.occurrence with
        | some idx =>
            if idx = 0 || cands.length < idx then
              ⟨.error (chars "Occurrence is out of bounds"), Option.none⟩
            else replaceBodyAt parsed a (cands.getD (idx - 1) default) idx
        | Option.none =>
            if 1 < cands.length then
              ⟨.error (chars "Multiple symbols with that name; specify occurrence"),
               Option.none⟩
            else replaceBodyAt parsed a (cands.getD 0 default) 1

/-- The full handler: `none` stands for `ParsedFile::from_path` failing
(unsupported extension, unreadable or oversized file). -/
def replaceSymbolBodyRun (pf : Option ParsedFileM) (a : ReplaceArgs) :
    ToolOut ReplaceResp :=
  match pf with
  | Option.none => ⟨.error (chars "not a supported source file"), Option.none⟩
  | some parsed => replaceSymbolBodyCore parsed a

/-! ## rename_symbol (symbols.rs): `\bESCAPED(old)\b` matching

The pattern is the regex-escaped old name between two `\b` assertions.  A
match at a position requires the literal (case-folded when insensitive),
a word/non-word transition on the left, and one on the right.  The scan
walks the content character by character; `supp` counts the remaining
characters of the previous match (matches are non-overlapping). -/

/-- Word-class of the head character (`false` at the end of input). -/
def headWordB : List Char → Bool
  | [] => false
  | c :: _ => wordCharB c

/-- Character comparison under the `case_insensitive` regex flag. -/
def charsEqCS (cs : Bool) (a b : Char) : Bool :=
  if cs then a = b else a.toLower = b.toLower

/-- Literal match of `old` against the start of `w`. -/
def matchPrefixCS (cs : Bool) : List Char → List Char → Bool
  | [], _ => true
  | _ :: _, [] => false
  | a :: as, b :: bs => charsEqCS cs a b && matchPrefixCS cs as bs

/-- The `\b` after a match of `n ≥ 1` characters starting at `w`. -/
def bndAfter (w : List Char) (n : Nat) : Bool :=
  match w.drop (n - 1) with
  | [] => false
  | last :: tail => wordCharB last != headWordB tail

/-- Whole-pattern match at the current position (`prev` is the word-class
of the preceding character, `false` at the start of input). -/
def matchHere (cs : Bool) (old : List Char) (prev : Bool) (w : List Char) :
    Bool :=
  matchPrefixCS cs old w && (prev != headWordB w) && bndAfter w old.length

/-- `Regex::replace_all` for the word-boundary pattern.  An empty old name
(`\b\b`) matches emptily at every boundary; `find_iter` then advances by
one character. -/
def renameAux (cs : Bool) (old new : List Char) :
    List Char → Bool → Nat → List Char
  | [], prev, 0 => if old.isEmpty && prev then new else []
  | [], _, _ + 1 => []
  | c :: rest, _, supp + 1 => renameAux cs old new rest (wordCharB c) supp
  | c :: rest, prev, 0 =>
      if old.isEmpty then
        if prev != wordCharB c then
          new ++ c :: renameAux cs old new rest (wordCharB c) 0
        else c :: renameAux cs old new rest (wordCharB c) 0
      else if matchHere cs old prev (c :: rest) then
        new ++ renameAux cs old new rest (wordCharB c) (old.length - 1)
      else c :: renameAux cs old new rest (wordCharB c) 0

/-- The start positions produced by `find_iter` for the same pattern. -/
def posAux (cs : Bool) (old : List Char) :
    List Char → Bool → Nat → Nat → List Nat
  | [], prev, 0, pos => if old.isEmpty && prev then [pos] else []
  | [], _, _ + 1, _ => []
  | c :: rest, _, supp + 1, pos => posAux cs old rest (wordCharB c) supp (pos + 1)
  | c :: rest, prev, 0, pos =>
      if old.isEmpty then
        if prev != wordCharB c then
          pos :: posAux cs old rest (wordCharB c) 0 (pos + 1)
        else posAux cs old rest (wordCharB c) 0 (pos + 1)
      else if matchHere cs old prev (c :: rest) then
        pos :: posAux cs old rest (wordCharB c) (old.length - 1) (pos + 1)
      else posAux cs old rest (wordCharB c) 0 (pos + 1)

/-- The number of matches (`find_iter().count()`). -/
def cntAux (cs : Bool) (old : List Char) : List Char → Bool → Nat → Nat
  | [], prev, 0 => if old.isEmpty && prev then 1 else 0
  | [], _, _ + 1 => 0
  | c :: rest, _, supp + 1 => cntAux cs old rest (wordCharB c) supp
  | c :: rest, prev, 0 =>
      if old.isEmpty then
        (if prev != wordCharB c then 1 else 0) + cntAux cs old rest (wordCharB c) 0
      else if matchHere cs old prev (c :: rest) then
        1 + cntAux cs old rest (wordCharB c) (old.length - 1)
      else cntAux cs old rest (wordCharB c) 0

/-- All match start positions in a file. -/
def matchPositions (cs : Bool) (old w : List Char) : List Nat :=
  posAux cs old w false 0 0

/-- Arguments of `rename_symbol` after defaulting. -/
structure RenameArgs where
  oldName : List Char
  newName : List Char
  caseSensitive : Bool
  occurrence : Option Nat
  deriving DecidableEq, Repr

/-- The handler of `rename_symbol_tool`; `none` content stands for an
unreadable file.  With `occurrence = some n` only the n-th match is
replaced (0 or 1 replacements); otherwise all are.  The file is written
only when at least one replacement was made. -/
def renameRun (content : Option (List Char)) (a : RenameArgs) : ToolOut Nat :=
  match content with
  | Option.none => ⟨.error (chars "Failed to read"), Option.none⟩
  | some w =>
      let ps := matchPositions a.caseSensitive a.oldName w
      match a.occurrence with
      | some target =>
          if 1 ≤ target ∧ target ≤ ps.length then
            let p := ps.getD (target - 1) 0
            ⟨.ok 1, some (replaceRange w p (p + a.oldName.length) a.newName)⟩
          else ⟨.ok 0, Option.none⟩
      | Option.none =>
          let n := ps.length
          if n = 0 then ⟨.ok 0, Option.none⟩
          else ⟨.ok n, some (renameAux a.caseSensitive a.oldName a.newName w false 0)⟩

/-! ## Pattern search (files.rs, component F), literal mode -/

/-- One hit (line and column are 1-based; path omitted for a single file). -/
structure SearchHit where
  line : Nat
  column : Nat
  deriving DecidableEq, Repr

/-- Count of non-overlapping occurrences of a needle, scanning left to
right (the specification-side notion quoted by the claim). -/
def occAux (needle : List Char) : List Char → Nat → Nat
  | [], _ => 0
  | _ :: rest, k + 1 => occAux needle rest k
  | c :: rest, 0 =>
      if !needle.isEmpty && needle.isPrefixOf (c :: rest) then
        1 + occAux needle rest (needle.length - 1)
      else occAux needle rest 0

/-- Non-overlapping occurrence count of `needle` in `hay`. -/
def countOccs (needle hay : List Char) : Nat := occAux needle hay 0

/-- The columns of the `while let Some(pos) = remainder.find(&needle)` loop
on one line, uncapped (column = characters before the hit + 1). -/
def lineColsAux (needle : List Char) : List Char → Nat → Nat → List Nat
  | [], _, _ => []
  | _ :: rest, pos, k + 1 => lineColsAux needle rest (pos + 1) k
  | c :: rest, pos, 0 =>
      if !needle.isEmpty && needle.isPrefixOf (c :: rest) then
        (pos + 1) :: lineColsAux needle rest (pos + 1) (needle.length - 1)
      else lineColsAux needle rest (pos + 1) 0

/-- The push-then-check cap of `search_in_file`: a hit is pushed, then the
loop breaks once `matches.len() + local_matches.len() >= max_results`.
`cur` is the count already accumulated. -/
def pushLoop (cols : List Nat) (cur maxR : Nat) : List Nat :=
  match cols with
  | [] => []
  | c :: rest => if maxR ≤ cur + 1 then [c] else c :: pushLoop rest (cur + 1) maxR

/-- The line loop of `search_in_file` (literal branch).  For an empty
needle `str::find` returns position 0 without advancing, so the loop pushes
column-1 hits until the cap. -/
def searchFileGo (needle : List Char) (maxR : Nat) :
    List (List Char) → Nat → Nat → List SearchHit
  | [], _, _ => []
  | l :: ls, i, cur =>
      let cols :=
        if needle.isEmpty then List.replicate (maxR - cur) 1
        else pushLoop (lineColsAux needle l 0 0) cur maxR
      let cur2 := cur + cols.length
      cols.map (fun col => SearchHit.mk (i + 1) col) ++
        (if maxR ≤ cur2 then [] else searchFileGo needle maxR ls (i + 1) cur2)

/-- files.rs `search_in_file`, literal branch, on one file whose search
starts with `cur` hits already accumulated.  Case-insensitive search
lowercases the needle and each line; columns are counted in characters, so
the positions against the original line coincide. -/
def searchInFileLit (cs : Bool) (pattern content : List Char)
    (maxR cur : Nat) : List SearchHit :=
  if maxR ≤ cur then []
  else
    let needle := if cs then pattern else lowerList pattern
    let ls := (rustLines content).map (fun l => if cs then l else lowerList l)
    searchFileGo needle maxR ls 0 cur

/-- The search_pattern response fields the claims mention. -/
structure SearchResp where
  hits : List SearchHit
  truncated : Bool
  deriving DecidableEq, Repr

/-- `search_pattern_tool` on a single file, literal mode. -/
def searchPatternFileLit (cs : Bool) (pattern content : List Char)
    (maxR : Nat) : SearchResp :=
  let ms := searchInFileLit cs pattern content maxR 0
  ⟨ms, decide (maxR ≤ ms.length)⟩

/-! ## Directory walk for search_pattern (files.rs + walkdir)

`WalkDir::filter_entry` applies its predicate to every yielded entry, the
root included, and does not descend into entries that fail it. -/

/-- A directory tree. -/
inductive FsNode where
  | file (name : String) (content : List Char)
  | dir (name : String) (children : List FsNode)

/-- Name of a node. -/
def fsName : FsNode → String
  | .file n _ => n
  | .dir n _ => n

/-- `name.starts_with('.')` on one path component. -/
def startsWithDot (s : String) : Bool :=
  match s.data with
  | [] => false
  | c :: _ => c = '.'

/-- files.rs `is_hidden_path` over the normal components of a path. -/
def isHiddenComps (comps : List String) : Bool :=
  comps.any startsWithDot

mutual

/-- The filtered walk: `filter_entry(|e| include_hidden || !is_hidden_path(e.path()))`. -/
def walkFiltered (inc : Bool) (path : List String) :
    FsNode → List (List String × FsNode)
  | .file nm c =>
      if !inc && isHiddenComps path then [] else [(path, .file nm c)]
  | .dir nm kids =>
      if !inc && isHiddenComps path then []
      else (path, .dir nm kids) :: walkKids inc path kids

/-- Walk of the children, in order. -/
def walkKids (inc : Bool) (path : List String) :
    List FsNode → List (List String × FsNode)
  | [] => []
  | k :: ks =>
      walkFiltered inc (path ++ [fsName k]) k ++ walkKids inc path ks

end

/-- The file loop of `search_pattern_tool`'s directory branch (literal
mode): each file is searched with the accumulated count, and the loop
breaks once the cap is reached. -/
def searchFilesGo (cs : Bool) (pattern : List Char) (maxR : Nat) :
    List (List Char) → Nat → List SearchHit
  | [], _ => []
  | f :: fs, cur =>
      let hs := searchInFileLit cs pattern f maxR cur
      let cur2 := cur + hs.length
      hs ++ (if maxR ≤ cur2 then [] else searchFilesGo cs pattern maxR fs cur2)

/-- `search_pattern_tool` on a directory root, literal mode. -/
def searchPatternDirLit (cs inc : Bool) (pattern : List Char)
    (rootPath : List String) (root : FsNode) (maxR : Nat) : SearchResp :=
  let files := (walkFiltered inc rootPath root).filterMap (fun e =>
    match e.2 with
    | .file _ content => some content
    | .dir _ _ => Option.none)
  let ms := searchFilesGo cs pattern maxR files 0
  ⟨ms, decide (maxR ≤ ms.length)⟩

/-! ## README excerpt (workflow.rs `read_readme_excerpt`) -/

/-- The boundary-respecting prefix of exactly `n` UTF-8 bytes, when `n` is
a character boundary. -/
def truncPrefixUtf8 : List Char → Nat → Option (List Char)
  | _, 0 => some []
  | [], _ + 1 => Option.none
  | c :: rest, n + 1 =>
      if c.utf8Size ≤ n + 1 then
        (truncPrefixUtf8 rest (n + 1 - c.utf8Size)).map (fun l => c :: l)
      else Option.none

/-- Rust `String::truncate(n)`: a no-op when `n` is at least the byte
length; otherwise keeps the first `n` bytes, and panics (`none`) when `n`
is not a character boundary. -/
def stringTruncate (s : List Char) (n : Nat) : Option (List Char) :=
  if utf8Len s ≤ n then some s else truncPrefixUtf8 s n

/-- workflow.rs `read_readme_excerpt` applied to the content of the first
README candidate found: contents over 1200 bytes are truncated and marked
with an ellipsis; `none` is the `String::truncate` panic. -/
def readmeExcerpt (content : List Char) : Option (List Char) :=
  if 1200 < utf8Len content then
    (stringTruncate content 1200).map (fun l => l ++ ['…'])
  else some content

/-! ## Shared membership lemmas for the sorted symbol lists -/

theorem mem_insertByLine (t s : FileSymbol) (l : List FileSymbol) :
    t ∈ insertByLine s l ↔ t = s ∨ t ∈ l := by
  induction l with
  | nil => simp [insertByLine]
  | cons u us ih =>
      by_cases h : u.line < s.line
      · simp only [insertByLine, if_pos h, List.mem_cons, ih]
        tauto
      · simp only [insertByLine, if_neg h, List.mem_cons]

theorem mem_sortByLine (t : FileSymbol) (l : List FileSymbol) :
    t ∈ sortByLine l ↔ t ∈ l := by
  induction l with
  | nil => simp [sortByLine]
  | cons x xs ih =>
      show t ∈ insertByLine x (sortByLine xs) ↔ _
      rw [mem_insertByLine]
      simp [ih]

/-! ## Concrete inputs used by the claims -/

/-- The file of spec scenario S2: `fn greet() {\n    println!("hi");\n}\n`. -/
def s2content : List Char :=
  chars "fn greet() \x7b\n    println!(\"hi\");\n\x7d\n"

/-- The S2 request: symbol mode, defaults. -/
def s2args : ReplaceArgs :=
  ⟨chars "greet", chars "println!(\"bye\");", Option.none, true,
   Option.none, Option.none⟩

/-- A Python file whose declaration indent is a single NO-BREAK SPACE
(U+00A0, two UTF-8 bytes): `\xA0def f():\n    pass\n`. -/
def c7content : List Char := chars "\xA0def f():\n    pass\n"

/-- README content of 1201 bytes whose byte 1200 falls inside the final
two-byte character. -/
def c8content : List Char := List.replicate 1199 'a' ++ ['é']

/-! ## C1 — the S2 scenario -/

/-- C1.  For the S2 file, `replace_symbol_body{symbol:"greet",...}` fails
instead of producing the rewritten file: the brace search starts after the
declaration line's terminator (offset 13), misses the `{` at offset 11 on
the declaration line itself, meets the `;` of the body and reports no
replaceable body.  The final conjunct shows the brace block is found when
the scan starts at the declaration line instead. -/
theorem C1_s2_scenario_fails :
    resultIsError
        (replaceSymbolBodyRun (some (parseFile Language.rust s2content)) s2args).result
        = true
      ∧ (replaceSymbolBodyRun (some (parseFile Language.rust s2content)) s2args).written
        = Option.none
      ∧ (parseFile Language.rust s2content).symbols.map FileSymbol.body
        = [BodyStyle.none]
      ∧ (lineBounds (fileLinesNew s2content) 0).2 = 13
      ∧ findBraceBlock s2content 13 = Option.none
      ∧ findBraceBlock s2content 0 = some (12, 33) := by
  refine ⟨?_, ?_, ?_, ?_, ?_, ?_⟩ <;> decide

/-! ## C2 — candidate selection of replace_symbol_body -/

/-- C2 counterexample.  The S2 file has exactly one symbol, named `greet`;
the needle `gree` is a proper substring of it, yet the candidate list is
empty and the call errors: symbol mode matches names exactly, not by
substring. -/
theorem C2_counterexample :
    (parseFile Language.rust s2content).symbols.map FileSymbol.name
        = [chars "greet"]
      ∧ containsSub (chars "greet") (chars "gree") = true
      ∧ chars "gree" ≠ chars "greet"
      ∧ replaceCandidates (parseFile Language.rust s2content).symbols
          (chars "gree") true = []
      ∧ resultIsError
          (replaceSymbolBodyRun (some (parseFile Language.rust s2content))
            ⟨chars "gree", chars "x", Option.none, true, Option.none,
             Option.none⟩).result = true := by
  refine ⟨?_, ?_, ?_, ?_, ?_⟩ <;> decide

/-- C2 amended.  In symbol mode the candidates are exactly the parsed
symbols whose name EQUALS the `symbol` argument, case-folded when
`case_sensitive` is false. -/
theorem C2_candidates_exact (symbols : List FileSymbol) (needle : List Char)
    (cs : Bool) (s : FileSymbol) :
    s ∈ replaceCandidates symbols needle cs ↔
      s ∈ symbols ∧
        (if cs = true then s.name = needle
         else lowerList s.name = lowerList needle) := by
  cases cs <;>
    simp [replaceCandidates, List.mem_filter, symbolNameMatches]

/-! ## C3 — failed calls write nothing -/

theorem replaceBodyAt_error_no_write (parsed : ParsedFileM) (a : ReplaceArgs)
    (t : FileSymbol) (occ : Nat)
    (h : resultIsError (replaceBodyAt parsed a t occ).result = true) :
    (replaceBodyAt parsed a t occ).written = Option.none := by
  cases hb : t.body <;> simp [replaceBodyAt, hb, resultIsError] at h ⊢

theorem replaceCore_error_no_write (parsed : ParsedFileM) (a : ReplaceArgs) :
    resultIsError (replaceSymbolBodyCore parsed a).result = true →
      (replaceSymbolBodyCore parsed a).written = Option.none := by
  unfold replaceSymbolBodyCore
  cases hs : a.startLine <;> cases he : a.endLine <;> simp only <;>
    repeat' split
  all_goals
    first
      | (intro _; rfl)
      | (exact replaceBodyAt_error_no_write _ _ _ _)
      | (intro h; simp [resultIsError] at h)

/-- C3.  Every error exit of `replace_symbol_body` and of `rename_symbol`
happens before the single full-file write: an error result comes with no
written content, so the file is unchanged. -/
theorem C3_error_leaves_file_unchanged (pf : Option ParsedFileM)
    (a : ReplaceArgs) (c : Option (List Char)) (ra : RenameArgs) :
    (resultIsError (replaceSymbolBodyRun pf a).result = true →
        (replaceSymbolBodyRun pf a).written = Option.none)
      ∧ (resultIsError (renameRun c ra).result = true →
        (renameRun c ra).written = Option.none) := by
  constructor
  · intro h
    cases pf with
    | none => rfl
    | some parsed => exact replaceCore_error_no_write parsed a h
  · cases c with
    | none => intro _; rfl
    | some w =>
        unfold renameRun
        simp only
        cases ra.occurrence <;> simp only <;> split <;>
          (intro h; simp [resultIsError] at h)

/-- C3 witness: a file with no matching symbol errors and writes nothing,
and an unreadable file errors and writes nothing. -/
theorem C3_witness :
    (replaceSymbolBodyRun (some (parseFile Language.rust s2content))
        ⟨chars "nothere", chars "x", Option.none, true, Option.none,
         Option.none⟩).written = Option.none
      ∧ (renameRun Option.none ⟨chars "a", chars "b", true, Option.none⟩).written
        = Option.none := by
  constructor
  · exact (C3_error_leaves_file_unchanged _ _ Option.none
      ⟨chars "a", chars "b", true, Option.none⟩).1 (by decide)
  · exact (C3_error_leaves_file_unchanged Option.none
      ⟨chars "x", chars "x", Option.none, true, Option.none, Option.none⟩
      Option.none ⟨chars "a", chars "b", true, Option.none⟩).2 (by decide)

/-! ## C10 — out-of-bounds occurrence in rename_symbol -/

/-- C10.  When `occurrence = n` exceeds the number of word-boundary matches,
`rename_symbol` succeeds with `replacements = 0` and does not write, leaving
the content unchanged — while `replace_symbol_body` errors on an
out-of-bounds occurrence. -/
theorem C10_rename_oob_occurrence (w old new : List Char) (cs : Bool) (n : Nat)
    (hn : (matchPositions cs old w).length < n) :
    renameRun (some w) ⟨old, new, cs, some n⟩ = ⟨.ok 0, Option.none⟩
      ∧ fileAfter w (renameRun (some w) ⟨old, new, cs, some n⟩) = w
      ∧ (∀ (pf : ParsedFileM) (a : ReplaceArgs),
          a.occurrence = some n → a.startLine = Option.none →
          a.endLine = Option.none →
          (sortByLine (replaceCandidates pf.symbols a.symbol a.caseSensitive)).length < n →
          resultIsError (replaceSymbolBodyCore pf a).result = true) := by
  have hrun : renameRun (some w) ⟨old, new, cs, some n⟩ = ⟨.ok 0, Option.none⟩ := by
    unfold renameRun
    simp only
    rw [if_neg]
    omega
  refine ⟨hrun, by rw [hrun]; rfl, ?_⟩
  intro pf a hocc hsl hel hlen
  unfold replaceSymbolBodyCore
  rw [hsl, hel]
  simp only [hocc]
  split
  · rfl
  · rw [if_pos]
    · rfl
    · simp [hlen]

/-- C10 witness: `"foo bar foo"` has two matches of `foo`; occurrence 5 is
out of bounds. -/
theorem C10_witness :
    renameRun (some (chars "foo bar foo"))
        ⟨chars "foo", chars "qux", true, some 5⟩ = ⟨.ok 0, Option.none⟩ :=
  (C10_rename_oob_occurrence (chars "foo bar foo") (chars "foo")
    (chars "qux") true 5 (by decide)).1

/-! ## C9 — hidden root prunes the whole walk -/

/-- C9.  With `include_hidden = false`, a directory root whose resolved
path has a component beginning with `.` fails the `filter_entry` predicate
at the root itself, so the walk yields nothing and the matches list is
empty for every pattern and every directory content. -/
theorem C9_hidden_root_no_matches (inc cs : Bool) (rootPath : List String)
    (root : FsNode) (pattern : List Char) (maxR : Nat)
    (hh : isHiddenComps rootPath = true) (hinc : inc = false) :
    (searchPatternDirLit cs inc pattern rootPath root maxR).hits = [] := by
  subst hinc
  cases root <;>
    simp [searchPatternDirLit, walkFiltered, hh, searchFilesGo]

/-- C9 witness: a root under `/home/u/.config` with a matching file. -/
theorem C9_witness :
    (searchPatternDirLit true false (chars "hit")
        ["home", "u", ".config", "proj"]
        (FsNode.dir "proj" [FsNode.file "a.txt" (chars "a hit here")])
        50).hits = [] :=
  C9_hidden_root_no_matches false true _ _ _ _ (by decide) rfl

/-! ## C8 — README excerpt truncation -/

theorem truncPrefixUtf8_mid_char (k : Nat) :
    truncPrefixUtf8 (List.replicate k 'a' ++ ['é']) (k + 1) = Option.none := by
  induction k with
  | zero => decide
  | succ k ih =>
      show truncPrefixUtf8 ('a' :: (List.replicate k 'a' ++ ['é'])) (k + 2)
        = Option.none
      have hsz : Char.utf8Size 'a' = 1 := by decide
      simp [truncPrefixUtf8, hsz, ih]

theorem truncPrefixUtf8_replicate (n : Nat) :
    ∀ m, n ≤ m →
      truncPrefixUtf8 (List.replicate m 'a') n = some (List.replicate n 'a') := by
  induction n with
  | zero => intro m _; cases m <;> rfl
  | succ n ih =>
      intro m hm
      cases m with
      | zero => omega
      | succ m =>
          show truncPrefixUtf8 ('a' :: List.replicate m 'a') (n + 1) = _
          have hsz : Char.utf8Size 'a' = 1 := by decide
          simp [truncPrefixUtf8, hsz, ih m (by omega), List.replicate_succ]

theorem utf8Len_append (a b : List Char) :
    utf8Len (a ++ b) = utf8Len a + utf8Len b := by
  simp [utf8Len]

theorem utf8Len_replicate (k : Nat) (c : Char) :
    utf8Len (List.replicate k c) = k * c.utf8Size := by
  induction k with
  | zero => simp [utf8Len]
  | succ k ih =>
      rw [List.replicate_succ]
      have hc : utf8Len (c :: List.replicate k c)
          = c.utf8Size + utf8Len (List.replicate k c) := by
        simp [utf8Len]
      rw [hc, ih, Nat.succ_mul]
      omega

/-- C8.  Excerpt generation does not always succeed: on a valid-UTF-8
README of 1201 bytes whose byte 1200 is not a character boundary,
`String::truncate(1200)` panics and the summary aborts, where the claim
promises the first 1200 bytes plus an ellipsis.  On boundary-aligned
content the promised behavior does hold (final conjunct). -/
theorem C8_truncate_panics :
    readmeExcerpt c8content = Option.none
      ∧ 1200 < utf8Len c8content
      ∧ readmeExcerpt (List.replicate 1300 'a')
        = some (List.replicate 1200 'a' ++ ['…']) := by
  have hlen : utf8Len c8content = 1201 := by
    unfold c8content
    rw [utf8Len_append, utf8Len_replicate]
    decide
  have hlen2 : utf8Len (List.replicate 1300 'a') = 1300 := by
    rw [utf8Len_replicate]
    decide
  refine ⟨?_, by omega, ?_⟩
  · unfold readmeExcerpt stringTruncate
    rw [if_pos (by omega), if_neg (by omega)]
    unfold c8content
    rw [show (1200 : Nat) = 1199 + 1 from rfl, truncPrefixUtf8_mid_char]
    rfl
  · unfold readmeExcerpt stringTruncate
    rw [if_pos (by omega), if_neg (by omega),
      truncPrefixUtf8_replicate 1200 1300 (by omega)]
    rfl

/-! ## C7 — reported column counts bytes, not scalar values -/

/-- C7 counterexample.  For the Python file whose `def` is indented by one
NO-BREAK SPACE (one scalar value, two UTF-8 bytes), the extractor reports
column 3 = bytes + 1, where the claim predicts 2 = scalar values + 1. -/
theorem C7_counterexample :
    (parseFile Language.python c7content).symbols.map FileSymbol.column = [3]
      ∧ (pyRawMatches c7content).map (fun mk => mk.1.2.indent.length + 1) = [2]
      ∧ (3 : Nat) ≠ 2 := by
  refine ⟨?_, ?_, ?_⟩ <;> decide

/-- C7 amended.  Every symbol produced by the modelled extractors carries
`column = UTF-8 byte length of the captured indent + 1`. -/
theorem C7_column_is_byte_length (content : List Char) (s : FileSymbol) :
    (s ∈ parsePythonSymbols content (fileLinesNew content) →
        ∃ mk ∈ pyRawMatches content,
          s = buildPySymbol (fileLinesNew content) mk.2 mk.1
            ∧ s.column = utf8Len mk.1.2.indent + 1)
      ∧ (s ∈ parseBraceSymbols content (fileLinesNew content) rustPatterns →
        ∃ mk ∈ rawMatchesOf rustPatterns content,
          s = buildBraceSymbol content (fileLinesNew content) mk.2 mk.1
            ∧ s.column = utf8Len mk.1.2.indent + 1) := by
  constructor
  · intro hs
    rw [parsePythonSymbols, mem_sortByLine, List.mem_map] at hs
    obtain ⟨mk, hmk, heq⟩ := hs
    exact ⟨mk, hmk, heq.symm, by rw [← heq]; rfl⟩
  · intro hs
    rw [parseBraceSymbols, mem_sortByLine, List.mem_map] at hs
    obtain ⟨mk, hmk, heq⟩ := hs
    exact ⟨mk, hmk, heq.symm, by rw [← heq]; rfl⟩

/-- C7 witness: the amended statement evaluated on the NBSP file. -/
theorem C7_witness :
    ∃ mk ∈ pyRawMatches c7content,
      ((parsePythonSymbols c7content (fileLinesNew c7content)).getD 0 default)
          = buildPySymbol (fileLinesNew c7content) mk.2 mk.1
        ∧ ((parsePythonSymbols c7content (fileLinesNew c7content)).getD 0 default).column
          = utf8Len mk.1.2.indent + 1 :=
  (C7_column_is_byte_length c7content _).1 (by decide)

/-! ## C4 — rename idempotence: word-boundary match lemmas

Throughout, `cs = true` (the claim's default `case_sensitive = true`), so
the literal comparison is plain character equality. -/

theorem charsEqCS_true (a b : Char) : charsEqCS true a b = decide (a = b) := rfl

theorem matchPrefix_append (a b : List Char) :
    matchPrefixCS true a (a ++ b) = true := by
  induction a with
  | nil => rfl
  | cons x xs ih => simp [matchPrefixCS, charsEqCS_true, ih]

theorem matchPrefix_exists {old w : List Char}
    (h : matchPrefixCS true old w = true) : w = old ++ w.drop old.length := by
  induction old generalizing w with
  | nil => simp
  | cons a as ih =>
      cases w with
      | nil => simp [matchPrefixCS] at h
      | cons b bs =>
          simp only [matchPrefixCS, charsEqCS_true, Bool.and_eq_true,
            decide_eq_true_eq] at h
          obtain ⟨hab, hrest⟩ := h
          subst hab
          have := ih hrest
          calc a :: bs = a :: (as ++ bs.drop as.length) := by rw [← this]
            _ = (a :: as) ++ (a :: bs).drop (as.length + 1) := by simp

theorem drop_append_le (a b : List Char) (n : Nat) (h : n ≤ a.length) :
    (a ++ b).drop n = a.drop n ++ b := by
  induction a generalizing n with
  | nil =>
      have : n = 0 := by simpa using h
      simp [this]
  | cons x xs ih =>
      cases n with
      | zero => simp
      | succ n => simpa using ih n (by simpa using h)

theorem take_append_le (a b : List Char) (n : Nat) (h : n ≤ a.length) :
    (a ++ b).take n = a.take n := by
  induction a generalizing n with
  | nil =>
      have : n = 0 := by simpa using h
      simp [this]
  | cons x xs ih =>
      cases n with
      | zero => simp
      | succ n => simpa using ih n (by simpa using h)

/-- For a nonempty all-word pattern that is a literal prefix of `w`, the
trailing `\b` holds exactly when the character after the matched span is
not a word character. -/
theorem bndAfter_of_matchPrefix (old : List Char) (h1 : old ≠ [])
    (h2 : ∀ c ∈ old, wordCharB c = true) :
    ∀ w, matchPrefixCS true old w = true →
      bndAfter w old.length = !headWordB (w.drop old.length) := by
  induction old with
  | nil => exact absurd rfl h1
  | cons x xs ih =>
      intro w hw
      cases w with
      | nil => simp [matchPrefixCS] at hw
      | cons b bs =>
          simp only [matchPrefixCS, charsEqCS_true, Bool.and_eq_true,
            decide_eq_true_eq] at hw
          obtain ⟨hab, hrest⟩ := hw
          subst hab
          cases xs with
          | nil =>
              show bndAfter (x :: bs) 1 = _
              have hx : wordCharB x = true := h2 x (by simp)
              simp [bndAfter, hx]
          | cons y ys =>
              have hne : y :: ys ≠ [] := by simp
              have hmem : ∀ c ∈ y :: ys, wordCharB c = true := by
                intro c hc; exact h2 c (by simp [hc])
              have := ih hne hmem bs hrest
              show bndAfter (x :: bs) ((y :: ys).length + 1) = _
              have hb : bndAfter (x :: bs) ((y :: ys).length + 1)
                  = bndAfter bs (y :: ys).length := by
                unfold bndAfter
                rw [Nat.add_sub_cancel, List.length_cons, List.drop_succ_cons,
                  Nat.add_sub_cancel]
              rw [hb, this]
              simp [List.drop_succ_cons]

/-- The maximality argument: at the head of a maximal word run `r ≠ old`
(followed by a non-word character or the end), the pattern does not match. -/
theorem no_match_word_run (old r t : List Char) (h1 : old ≠ [])
    (h2 : ∀ c ∈ old, wordCharB c = true)
    (h3 : ∀ c ∈ r, wordCharB c = true) (h4 : r ≠ []) (h5 : r ≠ old)
    (h6 : headWordB t = false) :
    matchHere true old false (r ++ t) = false := by
  cases hA : matchPrefixCS true old (r ++ t) with
  | false => simp [matchHere, hA]
  | true =>
      suffices hC : bndAfter (r ++ t) old.length = false by
        simp [matchHere, hC]
      rw [bndAfter_of_matchPrefix old h1 h2 _ hA]
      suffices hH : headWordB ((r ++ t).drop old.length) = true by
        simp [hH]
      rcases Nat.lt_trichotomy old.length r.length with hlt | heq | hgt
      · rw [drop_append_le _ _ _ (Nat.le_of_lt hlt)]
        cases hdr : r.drop old.length with
        | nil =>
            have := congrArg List.length hdr
            simp at this
            omega
        | cons z zs =>
            have hz : z ∈ r := by
              have : z ∈ r.drop old.length := by rw [hdr]; simp
              exact List.mem_of_mem_drop this
            show wordCharB z = true
            exact h3 z hz
      · have hfull := matchPrefix_exists hA
        have : r = old := by
          have h7 : (r ++ t).take r.length = r := by
            rw [take_append_le _ _ _ (Nat.le_refl _), List.take_length]
          have h8 : (r ++ t).take old.length = old := by
            conv_lhs => rw [hfull]
            rw [take_append_le _ _ _ (Nat.le_refl _), List.take_length]
          rw [← heq] at h7
          rw [h8] at h7
          exact h7.symm
        exact absurd this h5
      · have hfull := matchPrefix_exists hA
        have hrtake : old.take r.length = r := by
          have h7 : (r ++ t).take r.length = r := by
            rw [take_append_le _ _ _ (Nat.le_refl _), List.take_length]
          conv_rhs => rw [← h7]
          conv_rhs => rw [hfull]
          rw [take_append_le _ _ _ (Nat.le_of_lt hgt)]
        have hold : old = r ++ old.drop r.length := by
          conv_lhs => rw [← List.take_append_drop r.length old, hrtake]
        have ht2 : t = old.drop r.length ++ (r ++ t).drop old.length := by
          have hstep :
              r ++ t = (r ++ old.drop r.length) ++ (r ++ t).drop old.length := by
            conv_lhs => rw [hfull]
            rw [← hold]
          rw [List.append_assoc] at hstep
          exact List.append_cancel_left hstep
        have hlen : old.drop r.length ≠ [] := by
          intro hnil
          have := congrArg List.length hnil
          simp at this
          omega
        cases hdo : old.drop r.length with
        | nil => exact absurd hdo hlen
        | cons z zs =>
            have hz : z ∈ old := by
              have : z ∈ old.drop r.length := by rw [hdo]; simp
              exact List.mem_of_mem_drop this
            have hzw : wordCharB z = true := h2 z hz
            rw [hdo] at ht2
            rw [ht2] at h6
            simp [headWordB] at h6
            rw [h6] at hzw
            cases hzw

/-! ### Run-copy and consume lemmas for the rename scan -/

theorem isEmpty_false_of_ne_nil {l : List Char} (h : l ≠ []) :
    l.isEmpty = false := by
  cases l with
  | nil => exact absurd rfl h
  | cons c cs => rfl

/-- Skipping the tail of a match consumes its word characters and leaves
the scan state at `true`. -/
theorem renameAux_consume (old new : List Char) :
    ∀ (u t : List Char), (∀ c ∈ u, wordCharB c = true) →
      renameAux true old new (u ++ t) true u.length
        = renameAux true old new t true 0 := by
  intro u
  induction u with
  | nil => intro t _; rfl
  | cons x u' ih =>
      intro t hmem
      show renameAux true old new (x :: (u' ++ t)) true (u'.length + 1) = _
      have hx : wordCharB x = true := hmem x (by simp)
      calc renameAux true old new (x :: (u' ++ t)) true (u'.length + 1)
          = renameAux true old new (u' ++ t) (wordCharB x) u'.length := rfl
        _ = renameAux true old new (u' ++ t) true u'.length := by rw [hx]
        _ = renameAux true old new t true 0 := ih t (fun c hc => hmem c (by simp [hc]))

theorem cntAux_consume (old : List Char) :
    ∀ (u t : List Char), (∀ c ∈ u, wordCharB c = true) →
      cntAux true old (u ++ t) true u.length = cntAux true old t true 0 := by
  intro u
  induction u with
  | nil => intro t _; rfl
  | cons x u' ih =>
      intro t hmem
      have hx : wordCharB x = true := hmem x (by simp)
      calc cntAux true old (x :: (u' ++ t)) true (u'.length + 1)
          = cntAux true old (u' ++ t) (wordCharB x) u'.length := rfl
        _ = cntAux true old (u' ++ t) true u'.length := by rw [hx]
        _ = cntAux true old t true 0 := ih t (fun c hc => hmem c (by simp [hc]))

/-- Inside a word run with the state already at `true`, no boundary exists
and every character is copied. -/
theorem renameAux_word_copy (old new : List Char) (h1 : old ≠ []) :
    ∀ (u t : List Char), (∀ c ∈ u, wordCharB c = true) →
      renameAux true old new (u ++ t) true 0
        = u ++ renameAux true old new t true 0 := by
  intro u
  induction u with
  | nil => intro t _; rfl
  | cons x u' ih =>
      intro t hmem
      have hx : wordCharB x = true := hmem x (by simp)
      have hB : (true != headWordB (x :: (u' ++ t))) = false := by
        simp [headWordB, hx]
      have hm : matchHere true old true (x :: (u' ++ t)) = false := by
        simp [matchHere, hB]
      show renameAux true old new (x :: (u' ++ t)) true 0 = _
      rw [renameAux]
      rw [if_neg (by simp [isEmpty_false_of_ne_nil h1]), if_neg (by simp [hm])]
      rw [hx, ih t (fun c hc => hmem c (by simp [hc]))]
      rfl

theorem cntAux_word_copy (old : List Char) (h1 : old ≠ []) :
    ∀ (u t : List Char), (∀ c ∈ u, wordCharB c = true) →
      cntAux true old (u ++ t) true 0 = cntAux true old t true 0 := by
  intro u
  induction u with
  | nil => intro t _; rfl
  | cons x u' ih =>
      intro t hmem
      have hx : wordCharB x = true := hmem x (by simp)
      have hB : (true != headWordB (x :: (u' ++ t))) = false := by
        simp [headWordB, hx]
      have hm : matchHere true old true (x :: (u' ++ t)) = false := by
        simp [matchHere, hB]
      show cntAux true old (x :: (u' ++ t)) true 0 = _
      rw [cntAux]
      rw [if_neg (by simp [isEmpty_false_of_ne_nil h1]), if_neg (by simp [hm])]
      rw [hx]
      exact ih t (fun c hc => hmem c (by simp [hc]))

/-- A non-word run is copied unchanged, leaving the scan state at `false`
(or unchanged when the run is empty). -/
theorem renameAux_nonword_copy (old new : List Char) (h1 : old ≠ [])
    (h2 : ∀ c ∈ old, wordCharB c = true) :
    ∀ (s t : List Char) (p : Bool), (∀ c ∈ s, wordCharB c = false) →
      renameAux true old new (s ++ t) p 0
        = s ++ renameAux true old new t (if s.isEmpty then p else false) 0 := by
  intro s
  induction s with
  | nil => intro t p _; rfl
  | cons d s' ih =>
      intro t p hmem
      have hd : wordCharB d = false := hmem d (by simp)
      obtain ⟨oh, ot, rfl⟩ : ∃ oh ot, old = oh :: ot := by
        cases old with
        | nil => exact absurd rfl h1
        | cons oh ot => exact ⟨oh, ot, rfl⟩
      have hoh : wordCharB oh = true := h2 oh (by simp)
      have hne : oh ≠ d := by
        intro he; rw [he] at hoh; rw [hoh] at hd; cases hd
      have hpre : matchPrefixCS true (oh :: ot) (d :: (s' ++ t)) = false := by
        simp [matchPrefixCS, charsEqCS_true, hne]
      have hm : matchHere true (oh :: ot) p (d :: (s' ++ t)) = false := by
        simp [matchHere, hpre]
      show renameAux true (oh :: ot) new (d :: (s' ++ t)) p 0 = _
      rw [renameAux]
      rw [if_neg (by simp), if_neg (by simp [hm])]
      rw [hd, ih t false (fun c hc => hmem c (by simp [hc]))]
      simp [ite_self]

theorem cntAux_nonword_copy (old : List Char) (h1 : old ≠ [])
    (h2 : ∀ c ∈ old, wordCharB c = true) :
    ∀ (s t : List Char) (p : Bool), (∀ c ∈ s, wordCharB c = false) →
      cntAux true old (s ++ t) p 0
        = cntAux true old t (if s.isEmpty then p else false) 0 := by
  intro s
  induction s with
  | nil => intro t p _; rfl
  | cons d s' ih =>
      intro t p hmem
      have hd : wordCharB d = false := hmem d (by simp)
      obtain ⟨oh, ot, rfl⟩ : ∃ oh ot, old = oh :: ot := by
        cases old with
        | nil => exact absurd rfl h1
        | cons oh ot => exact ⟨oh, ot, rfl⟩
      have hoh : wordCharB oh = true := h2 oh (by simp)
      have hne : oh ≠ d := by
        intro he; rw [he] at hoh; rw [hoh] at hd; cases hd
      have hpre : matchPrefixCS true (oh :: ot) (d :: (s' ++ t)) = false := by
        simp [matchPrefixCS, charsEqCS_true, hne]
      have hm : matchHere true (oh :: ot) p (d :: (s' ++ t)) = false := by
        simp [matchHere, hpre]
      show cntAux true (oh :: ot) (d :: (s' ++ t)) p 0 = _
      rw [cntAux]
      rw [if_neg (by simp), if_neg (by simp [hm])]
      rw [hd, ih t false (fun c hc => hmem c (by simp [hc]))]
      simp [ite_self]

/-- At a maximal word run equal to `old`, the scanner replaces it with
`new` and continues behind it with the state at `true`. -/
theorem renameAux_match (old new : List Char) (h1 : old ≠ [])
    (h2 : ∀ c ∈ old, wordCharB c = true) :
    ∀ t, headWordB t = false →
      renameAux true old new (old ++ t) false 0
        = new ++ renameAux true old new t true 0 := by
  intro t ht
  obtain ⟨oh, ot, rfl⟩ : ∃ oh ot, old = oh :: ot := by
    cases old with
    | nil => exact absurd rfl h1
    | cons oh ot => exact ⟨oh, ot, rfl⟩
  have hoh : wordCharB oh = true := h2 oh (by simp)
  have hpre : matchPrefixCS true (oh :: ot) ((oh :: ot) ++ t) = true :=
    matchPrefix_append _ _
  have hB : (false != headWordB ((oh :: ot) ++ t)) = true := by
    simp [headWordB, hoh]
  have hC : bndAfter ((oh :: ot) ++ t) (oh :: ot).length = true := by
    rw [bndAfter_of_matchPrefix (oh :: ot) h1 h2 _ hpre]
    rw [List.drop_left]
    simp [ht]
  show renameAux true (oh :: ot) new (oh :: (ot ++ t)) false 0 = _
  rw [renameAux]
  rw [if_neg (by simp)]
  rw [if_pos (by
    simp only [matchHere, Bool.and_eq_true]
    refine ⟨⟨?_, ?_⟩, ?_⟩
    · simpa using hpre
    · simp [headWordB, hoh]
    · simpa using hC)]
  rw [hoh]
  have : (oh :: ot).length - 1 = ot.length := by simp
  rw [this, renameAux_consume _ _ ot t (fun c hc => h2 c (by simp [hc]))]

/-- At the head of a maximal word run different from `old`, nothing
matches and the run is copied. -/
theorem renameAux_word_run (old new : List Char) (h1 : old ≠ [])
    (h2 : ∀ c ∈ old, wordCharB c = true) :
    ∀ (r t : List Char), (∀ c ∈ r, wordCharB c = true) → r ≠ [] → r ≠ old →
      headWordB t = false →
      renameAux true old new (r ++ t) false 0
        = r ++ renameAux true old new t true 0 := by
  intro r t hr hrne hro ht
  obtain ⟨c, r', rfl⟩ : ∃ c r', r = c :: r' := by
    cases r with
    | nil => exact absurd rfl hrne
    | cons c r' => exact ⟨c, r', rfl⟩
  have hc : wordCharB c = true := hr c (by simp)
  have hm := no_match_word_run old (c :: r') t h1 h2 hr hrne hro ht
  show renameAux true old new (c :: (r' ++ t)) false 0 = _
  rw [renameAux]
  rw [if_neg (by simp [isEmpty_false_of_ne_nil h1])]
  rw [if_neg (by simpa using hm)]
  rw [hc, renameAux_word_copy old new h1 r' t (fun x hx => hr x (by simp [hx]))]
  rfl

theorem cntAux_word_run (old : List Char) (h1 : old ≠ [])
    (h2 : ∀ c ∈ old, wordCharB c = true) :
    ∀ (r t : List Char), (∀ c ∈ r, wordCharB c = true) → r ≠ [] → r ≠ old →
      headWordB t = false →
      cntAux true old (r ++ t) false 0 = cntAux true old t true 0 := by
  intro r t hr hrne hro ht
  obtain ⟨c, r', rfl⟩ : ∃ c r', r = c :: r' := by
    cases r with
    | nil => exact absurd rfl hrne
    | cons c r' => exact ⟨c, r', rfl⟩
  have hc : wordCharB c = true := hr c (by simp)
  have hm := no_match_word_run old (c :: r') t h1 h2 hr hrne hro ht
  show cntAux true old (c :: (r' ++ t)) false 0 = _
  rw [cntAux]
  rw [if_neg (by simp [isEmpty_false_of_ne_nil h1])]
  rw [if_neg (by simpa using hm)]
  rw [hc]
  exact cntAux_word_copy old h1 r' t (fun x hx => hr x (by simp [hx]))

/-- The rename scan preserves a non-word (or absent) head character. -/
theorem renameAux_head_nonword (old new : List Char) (h1 : old ≠ [])
    (h2 : ∀ c ∈ old, wordCharB c = true) :
    ∀ (t : List Char) (p : Bool), headWordB t = false →
      headWordB (renameAux true old new t p 0) = false := by
  intro t p ht
  cases t with
  | nil =>
      show headWordB (if old.isEmpty && p then new else []) = false
      rw [isEmpty_false_of_ne_nil h1]
      simp [headWordB]
  | cons d rest =>
      have hd : wordCharB d = false := by simpa [headWordB] using ht
      obtain ⟨oh, ot, rfl⟩ : ∃ oh ot, old = oh :: ot := by
        cases old with
        | nil => exact absurd rfl h1
        | cons oh ot => exact ⟨oh, ot, rfl⟩
      have hoh : wordCharB oh = true := h2 oh (by simp)
      have hne : oh ≠ d := by
        intro he; rw [he] at hoh; rw [hoh] at hd; cases hd
      have hpre : matchPrefixCS true (oh :: ot) (d :: rest) = false := by
        simp [matchPrefixCS, charsEqCS_true, hne]
      have hm : matchHere true (oh :: ot) p (d :: rest) = false := by
        simp [matchHere, hpre]
      show headWordB (renameAux true (oh :: ot) new (d :: rest) p 0) = false
      rw [renameAux]
      rw [if_neg (by simp), if_neg (by simp [hm])]
      simpa [headWordB] using hd

/-- Heads of the word/non-word split. -/
theorem headWordB_dropWhile_word (l : List Char) :
    headWordB (l.dropWhile wordCharB) = false := by
  induction l with
  | nil => rfl
  | cons c l' ih =>
      by_cases hc : wordCharB c = true
      · rw [List.dropWhile_cons_of_pos hc]; exact ih
      · rw [List.dropWhile_cons_of_neg hc]
        simpa [headWordB] using hc

theorem headWordB_rename_dropWhile_nonword (l : List Char) :
    ∀ c ∈ l.dropWhile (fun c => !wordCharB c), True := fun _ _ => trivial

/-! ### The main zero-match theorem for C4 -/

theorem cnt_rename_zero (old new : List Char) (h1 : old ≠ [])
    (h2 : ∀ c ∈ old, wordCharB c = true) (h3 : new ≠ [])
    (h4 : ∀ c ∈ new, wordCharB c = true) (h5 : new ≠ old) :
    ∀ (n : Nat) (w : List Char), w.length ≤ n →
      ∀ p, (p = true → headWordB w = false) →
        cntAux true old (renameAux true old new w p 0) p 0 = 0 := by
  intro n
  induction n with
  | zero =>
      intro w hw p _
      have : w = [] := by
        cases w with
        | nil => rfl
        | cons c cs => simp at hw
      subst this
      show cntAux true old (if old.isEmpty && p then new else []) p 0 = 0
      rw [isEmpty_false_of_ne_nil h1]
      show cntAux true old [] p 0 = 0
      show (if old.isEmpty && p then 1 else 0) = 0
      rw [isEmpty_false_of_ne_nil h1]
      rfl
  | succ n ihn =>
      intro w hw p hp
      cases w with
      | nil =>
          show cntAux true old (if old.isEmpty && p then new else []) p 0 = 0
          rw [isEmpty_false_of_ne_nil h1]
          show (if old.isEmpty && p then 1 else 0) = 0
          rw [isEmpty_false_of_ne_nil h1]
          rfl
      | cons c w' =>
          by_cases hcw : wordCharB c = true
          · have hpf : p = false := by
              cases p with
              | false => rfl
              | true =>
                  have := hp rfl
                  simp [headWordB, hcw] at this
            subst hpf
            have hsplit := List.takeWhile_append_dropWhile (p := wordCharB)
              (l := c :: w')
            set r := (c :: w').takeWhile wordCharB with hr
            set t := (c :: w').dropWhile wordCharB with htd
            have hrcons : r = c :: w'.takeWhile wordCharB := by
              rw [hr, List.takeWhile_cons_of_pos hcw]
            have hrne : r ≠ [] := by rw [hrcons]; simp
            have hrw : ∀ x ∈ r, wordCharB x = true := by
              intro x hx
              exact List.mem_takeWhile_imp hx
            have htnw : headWordB t = false := headWordB_dropWhile_word _
            have hlent : t.length ≤ n := by
              have hlen := congrArg List.length hsplit
              rw [List.length_append] at hlen
              have : r.length ≥ 1 := by
                rw [hrcons]; simp
              simp at hlen hw
              omega
            by_cases hro : r = old
            · rw [← hsplit, hro]
              rw [renameAux_match old new h1 h2 t htnw]
              have hXh : headWordB (renameAux true old new t true 0) = false :=
                renameAux_head_nonword old new h1 h2 t true htnw
              rw [cntAux_word_run old h1 h2 new _ h4 h3 h5 hXh]
              exact ihn t hlent true (fun _ => htnw)
            · rw [← hsplit]
              rw [renameAux_word_run old new h1 h2 r t hrw hrne hro htnw]
              have hXh : headWordB (renameAux true old new t true 0) = false :=
                renameAux_head_nonword old new h1 h2 t true htnw
              rw [cntAux_word_run old h1 h2 r _ hrw hrne hro hXh]
              exact ihn t hlent true (fun _ => htnw)
          · have hcw' : wordCharB c = false := by
              cases hcc : wordCharB c with
              | false => rfl
              | true => exact absurd hcc hcw
            have hsplit := List.takeWhile_append_dropWhile
              (p := fun c => !wordCharB c) (l := c :: w')
            set s := (c :: w').takeWhile (fun c => !wordCharB c) with hs
            set t := (c :: w').dropWhile (fun c => !wordCharB c) with htd
            have hscons : s = c :: w'.takeWhile (fun c => !wordCharB c) := by
              rw [hs, List.takeWhile_cons_of_pos (by simp [hcw'])]
            have hsne : s.isEmpty = false := by rw [hscons]; rfl
            have hsw : ∀ x ∈ s, wordCharB x = false := by
              intro x hx
              have := List.mem_takeWhile_imp hx
              simpa using this
            have hlent : t.length ≤ n := by
              have hlen := congrArg List.length hsplit
              rw [List.length_append] at hlen
              have : s.length ≥ 1 := by
                rw [hscons]; simp
              simp at hlen hw
              omega
            rw [← hsplit]
            rw [renameAux_nonword_copy old new h1 h2 s t p hsw]
            rw [hsne]
            rw [cntAux_nonword_copy old h1 h2 s _ p hsw, hsne]
            exact ihn t hlent false (by intro hh; cases hh)

/-! ### Renaming a name to itself, and the position/count bridge -/

/-- Replacing every match of `old` with `old` itself reproduces the input
(the scan re-emits exactly the characters it consumed). -/
theorem renameAux_self (old : List Char) :
    ∀ (w : List Char) (prev : Bool) (supp : Nat),
      renameAux true old old w prev supp = w.drop supp := by
  intro w
  induction w with
  | nil =>
      intro prev supp
      cases supp with
      | zero =>
          show (if old.isEmpty && prev then old else []) = []
          by_cases hcond : (old.isEmpty && prev) = true
          · rw [if_pos hcond]
            have hoe : old.isEmpty = true := by
              cases h : old.isEmpty
              · rw [h] at hcond; simp at hcond
              · rfl
            cases old with
            | nil => rfl
            | cons a as => simp at hoe
          · rw [if_neg hcond]
      | succ k => rfl
  | cons c rest ih =>
      intro prev supp
      cases supp with
      | succ k =>
          show renameAux true old old rest (wordCharB c) k = _
          rw [ih]
          rfl
      | zero =>
          by_cases hoe : old.isEmpty = true
          · have hnil : old = [] := by
              cases old with
              | nil => rfl
              | cons a as => simp at hoe
            subst hnil
            rw [renameAux]
            by_cases hb : (prev != wordCharB c) = true
            · simp [hb, ih]
            · simp [hb, ih]
          · have hoe' : old.isEmpty = false := by
              cases h : old.isEmpty
              · rfl
              · exact absurd h hoe
            rw [renameAux]
            rw [if_neg (by simp [hoe'])]
            by_cases hm : matchHere true old prev (c :: rest) = true
            · rw [if_pos hm]
              have hpre : matchPrefixCS true old (c :: rest) = true := by
                simp only [matchHere, Bool.and_eq_true] at hm
                exact hm.1.1
              have hfull := matchPrefix_exists hpre
              obtain ⟨k, hk⟩ : ∃ k, old.length = k + 1 := by
                cases old with
                | nil => simp at hoe'
                | cons a as => exact ⟨as.length, by simp⟩
              rw [ih, List.drop_zero]
              conv_rhs => rw [hfull]
              congr 1
              rw [hk]
              simp
            · rw [if_neg hm]
              simp [ih]

/-- The list of match start positions has the match count as its length. -/
theorem posAux_length (cs : Bool) (old : List Char) :
    ∀ (w : List Char) (prev : Bool) (supp pos : Nat),
      (posAux cs old w prev supp pos).length = cntAux cs old w prev supp := by
  intro w
  induction w with
  | nil =>
      intro prev supp pos
      cases supp with
      | zero =>
          show (if old.isEmpty && prev then [pos] else []).length = _
          by_cases hcond : (old.isEmpty && prev) = true
          · rw [if_pos hcond]
            show 1 = if old.isEmpty && prev then 1 else 0
            rw [if_pos hcond]
          · rw [if_neg hcond]
            show 0 = if old.isEmpty && prev then 1 else 0
            rw [if_neg hcond]
      | succ k => rfl
  | cons c rest ih =>
      intro prev supp pos
      cases supp with
      | succ k => exact ih (wordCharB c) k (pos + 1)
      | zero =>
          rw [posAux, cntAux]
          by_cases hoe : old.isEmpty = true
          · rw [if_pos hoe, if_pos hoe]
            by_cases hb : (prev != wordCharB c) = true
            · rw [if_pos hb, if_pos hb]
              simp only [List.length_cons, ih]
              omega
            · rw [if_neg hb, if_neg hb]
              simp [ih]
          · rw [if_neg hoe, if_neg hoe]
            by_cases hm : matchHere cs old prev (c :: rest) = true
            · rw [if_pos hm, if_pos hm]
              simp only [List.length_cons, ih]
              omega
            · rw [if_neg hm, if_neg hm]
              exact ih (wordCharB c) 0 (pos + 1)

/-- The all-occurrences branch of the rename handler, unfolded. -/
theorem renameRun_all (w old new : List Char) :
    renameRun (some w) ⟨old, new, true, Option.none⟩ =
      if (matchPositions true old w).length = 0 then ⟨.ok 0, Option.none⟩
      else ⟨.ok (matchPositions true old w).length,
            some (renameAux true old new w false 0)⟩ := rfl

/-! ### C4 -/

/-- C4 counterexample.  With `new_name = "(foo)"` (not an identifier) the
claim fails: after renaming `foo → (foo)` in the file `foo`, a second
identical call finds a fresh word-boundary match inside the replacement and
reports 1 replacement, not 0. -/
theorem C4_counterexample :
    fileAfter (chars "foo")
        (renameRun (some (chars "foo"))
          ⟨chars "foo", chars "(foo)", true, Option.none⟩) = chars "(foo)"
      ∧ (renameRun (some (chars "(foo)"))
          ⟨chars "foo", chars "(foo)", true, Option.none⟩).result = .ok 1
      ∧ (1 : Nat) ≠ 0 := by
  refine ⟨?_, ?_, ?_⟩ <;> decide

/-- C4 amended.  For nonempty old/new names consisting of word characters
with `new ≠ old` (default flags), a second identical rename reports zero
replacements; and renaming `old → old` leaves the content unchanged for
every old name. -/
theorem C4_rename_idempotent (w old new : List Char) (h1 : old ≠ [])
    (h2 : ∀ c ∈ old, wordCharB c = true) (h3 : new ≠ [])
    (h4 : ∀ c ∈ new, wordCharB c = true) (h5 : new ≠ old) :
    (renameRun (some (fileAfter w
        (renameRun (some w) ⟨old, new, true, Option.none⟩)))
      ⟨old, new, true, Option.none⟩).result = .ok 0
    ∧ (∀ (v oldName : List Char),
        fileAfter v (renameRun (some v) ⟨oldName, oldName, true, Option.none⟩)
          = v) := by
  constructor
  · by_cases hz : (matchPositions true old w).length = 0
    · have hfa : fileAfter w
          (renameRun (some w) ⟨old, new, true, Option.none⟩) = w := by
        rw [renameRun_all, if_pos hz]
        rfl
      rw [hfa, renameRun_all, if_pos hz]
    · have hfa : fileAfter w
          (renameRun (some w) ⟨old, new, true, Option.none⟩)
          = renameAux true old new w false 0 := by
        rw [renameRun_all, if_neg hz]
        rfl
      have hzero :
          (matchPositions true old (renameAux true old new w false 0)).length
            = 0 := by
        show (posAux true old (renameAux true old new w false 0) false 0 0).length = 0
        rw [posAux_length]
        exact cnt_rename_zero old new h1 h2 h3 h4 h5 w.length w (Nat.le_refl _)
          false (fun h => nomatch h)
      rw [hfa, renameRun_all, if_pos hzero]
  · intro v oldName
    rw [renameRun_all]
    by_cases hz : (matchPositions true oldName v).length = 0
    · rw [if_pos hz]; rfl
    · rw [if_neg hz]
      show renameAux true oldName oldName v false 0 = v
      rw [renameAux_self]
      simp

/-- C4 witness: `foo → qux` on `"foo bar foo"`; the second call reports 0. -/
theorem C4_witness :
    (renameRun (some (fileAfter (chars "foo bar foo")
        (renameRun (some (chars "foo bar foo"))
          ⟨chars "foo", chars "qux", true, Option.none⟩)))
      ⟨chars "foo", chars "qux", true, Option.none⟩).result = .ok 0 :=
  (C4_rename_idempotent (chars "foo bar foo") (chars "foo") (chars "qux")
    (by decide) (by decide) (by decide) (by decide) (by decide)).1

/-! ## C5 — literal pattern search: counting lemmas -/

theorem lineColsAux_length (p : List Char) :
    ∀ (l : List Char) (pos k : Nat),
      (lineColsAux p l pos k).length = occAux p l k := by
  intro l
  induction l with
  | nil => intro pos k; rfl
  | cons c rest ih =>
      intro pos k
      cases k with
      | succ k => exact ih (pos + 1) k
      | zero =>
          rw [lineColsAux, occAux]
          by_cases hm : (!p.isEmpty && p.isPrefixOf (c :: rest)) = true
          · rw [if_pos hm, if_pos hm]
            simp only [List.length_cons, ih]
            omega
          · rw [if_neg hm, if_neg hm]
            exact ih (pos + 1) 0

theorem pushLoop_length (maxR : Nat) :
    ∀ (cols : List Nat) (cur : Nat), cur < maxR →
      (pushLoop cols cur maxR).length = min cols.length (maxR - cur) := by
  intro cols
  induction cols with
  | nil => intro cur _; simp [pushLoop]
  | cons c rest ih =>
      intro cur hcur
      rw [pushLoop]
      by_cases hc : maxR ≤ cur + 1
      · rw [if_pos hc]
        simp only [List.length_cons, List.length_nil]
        omega
      · rw [if_neg hc]
        simp only [List.length_cons]
        rw [ih (cur + 1) (by omega)]
        omega

theorem searchFileGo_length (p : List Char) (maxR : Nat) (hp : p.isEmpty = false) :
    ∀ (ls : List (List Char)) (i cur : Nat), cur < maxR →
      (searchFileGo p maxR ls i cur).length
        = min ((ls.map (fun l => occAux p l 0)).sum) (maxR - cur) := by
  intro ls
  induction ls with
  | nil => intro i cur _; simp [searchFileGo]
  | cons l ls ih =>
      intro i cur hcur
      rw [searchFileGo]
      simp only [hp, Bool.false_eq_true, if_false, List.length_append,
        List.length_map, List.map_cons, List.sum_cons]
      have hcols : (pushLoop (lineColsAux p l 0 0) cur maxR).length
          = min (occAux p l 0) (maxR - cur) := by
        rw [pushLoop_length maxR _ cur hcur, lineColsAux_length]
      by_cases hbreak :
          maxR ≤ cur + (pushLoop (lineColsAux p l 0 0) cur maxR).length
      · rw [if_pos hbreak]
        simp only [List.length_nil]
        omega
      · rw [if_neg hbreak]
        rw [ih (i + 1) _ (by omega)]
        omega

/-- A prefix of `u ++ c :: v` avoiding `c` is a prefix of `u`. -/
theorem prefix_avoid_cons {p u v : List Char} {c : Char} (hc : c ∉ p)
    (h : p <+: u ++ c :: v) : p <+: u := by
  induction p generalizing u with
  | nil => exact List.nil_prefix
  | cons a p' ih =>
      cases u with
      | nil =>
          rcases List.cons_prefix_cons.mp h with ⟨hac, _⟩
          subst hac
          exact absurd (List.mem_cons_self a p') hc
      | cons b u' =>
          rcases List.cons_prefix_cons.mp h with ⟨hab, hrest⟩
          subst hab
          have hc' : c ∉ p' := fun hm => hc (by simp [hm])
          exact List.cons_prefix_cons.mpr ⟨rfl, ih hc' hrest⟩

/-- Non-overlapping occurrence counting splits at a character that the
needle does not contain. -/
theorem occSplit (p : List Char) (c : Char) (hp : p ≠ []) (hc : c ∉ p) :
    ∀ (u : List Char) (s : Nat) (v : List Char), s ≤ u.length →
      occAux p (u ++ c :: v) s = occAux p u s + occAux p (c :: v) 0 := by
  intro u
  induction u with
  | nil =>
      intro s v hs
      have hs0 : s = 0 := by simpa using hs
      subst hs0
      show occAux p (c :: v) 0 = occAux p [] 0 + occAux p (c :: v) 0
      show occAux p (c :: v) 0 = 0 + occAux p (c :: v) 0
      omega
  | cons d u' ih =>
      intro s v hs
      cases s with
      | succ k =>
          show occAux p (u' ++ c :: v) k = occAux p u' k + _
          exact ih k v (by simpa using hs)
      | zero =>
          show occAux p (d :: (u' ++ c :: v)) 0 = occAux p (d :: u') 0 + _
          rw [occAux, occAux]
          have hpne : (!p.isEmpty) = true := by
            rw [isEmpty_false_of_ne_nil hp]; rfl
          by_cases hpre : p.isPrefixOf (d :: u') = true
          · have hpre2 : p.isPrefixOf (d :: (u' ++ c :: v)) = true := by
              rw [List.isPrefixOf_iff_prefix] at hpre ⊢
              have : p <+: (d :: u') ++ c :: v :=
                hpre.trans (List.prefix_append _ _)
              simpa using this
            rw [if_pos (by simp [hpne, hpre2]), if_pos (by simp [hpne, hpre])]
            have hlen : p.length - 1 ≤ u'.length := by
              have := (List.isPrefixOf_iff_prefix.mp hpre).length_le
              simp at this
              omega
            rw [ih (p.length - 1) v hlen]
            omega
          · have hpre2 : p.isPrefixOf (d :: (u' ++ c :: v)) = false := by
              cases hq : p.isPrefixOf (d :: (u' ++ c :: v)) with
              | false => rfl
              | true =>
                  rw [List.isPrefixOf_iff_prefix] at hq
                  have hq' : p <+: (d :: u') ++ c :: v := by simpa using hq
                  have : p.isPrefixOf (d :: u') = true := by
                    rw [List.isPrefixOf_iff_prefix]
                    exact prefix_avoid_cons hc hq'
                  exact absurd this hpre
            rw [if_neg (by simp [hpre2]), if_neg (by simp [hpre])]
            exact ih 0 v (by omega)

/-! ### Line decomposition of the occurrence count -/

theorem splitNl_ne_nil (s : List Char) : splitNl s ≠ [] := by
  cases s with
  | nil => simp [splitNl]
  | cons c rest =>
      rw [splitNl]
      by_cases hc : c = '\n'
      · simp [hc]
      · rw [if_neg hc]
        cases h : splitNl rest <;> simp

theorem splitNl_append_nl (a b : List Char) (ha : '\n' ∉ a) :
    splitNl (a ++ '\n' :: b) = a :: splitNl b := by
  induction a with
  | nil =>
      show splitNl ('\n' :: b) = [] :: splitNl b
      rw [splitNl, if_pos rfl]
  | cons x a' ih =>
      have hx : ¬ x = '\n' := fun h => ha (by simp [h])
      have ha' : '\n' ∉ a' := fun h => ha (by simp [h])
      show splitNl (x :: (a' ++ '\n' :: b)) = _
      rw [splitNl, if_neg hx, ih ha']

theorem splitNl_noNl (f : List Char) (h : '\n' ∉ f) : splitNl f = [f] := by
  induction f with
  | nil => rfl
  | cons c rest ih =>
      have hc : ¬ c = '\n' := fun hh => h (by simp [hh])
      have h' : '\n' ∉ rest := fun hh => h (by simp [hh])
      rw [splitNl, if_neg hc, ih h']

theorem rustLines_noNl (f : List Char) (h : '\n' ∉ f) :
    rustLines f = if f = [] then [] else [f] := by
  by_cases hf : f = []
  · subst hf; rfl
  · rw [if_neg hf]
    simp only [rustLines]
    rw [splitNl_noNl f h]
    cases hfc : f with
    | nil => exact absurd hfc hf
    | cons c cs => rfl

theorem rustLines_append_nl (a b : List Char) (hna : '\n' ∉ a) :
    rustLines (a ++ '\n' :: b) = stripCR a :: rustLines b := by
  simp only [rustLines]
  rw [splitNl_append_nl a b hna]
  cases hqq : splitNl b with
  | nil => exact absurd hqq (splitNl_ne_nil b)
  | cons q qs =>
      rw [List.getLast?_cons_cons]
      cases hgl : (q :: qs).getLast? with
      | none => simp at hgl
      | some last =>
          cases last with
          | nil =>
              show (a :: q :: qs).dropLast.map stripCR = _
              rw [List.dropLast_cons₂]
              rfl
          | cons z zs =>
              show (a :: q :: qs).dropLast.map stripCR
                  ++ [(a :: q :: qs).getLastD []] = _
              rw [List.dropLast_cons₂]
              rw [List.getLastD_eq_getLast?, List.getLastD_eq_getLast?,
                List.getLast?_cons_cons, hgl]
              rfl

theorem occ_head_avoid (p : List Char) (c : Char) (hp : p ≠ []) (hc : c ∉ p)
    (v : List Char) : occAux p (c :: v) 0 = occAux p v 0 := by
  have hnp : p.isPrefixOf (c :: v) = false := by
    cases hq : p.isPrefixOf (c :: v) with
    | false => rfl
    | true =>
        rw [List.isPrefixOf_iff_prefix] at hq
        cases p with
        | nil => exact absurd rfl hp
        | cons a p' =>
            rcases List.cons_prefix_cons.mp hq with ⟨hac, _⟩
            subst hac
            exact absurd (List.mem_cons_self a p') hc
  rw [occAux, if_neg (by simp [hnp])]

theorem occ_stripCR (p : List Char) (hp : p ≠ []) (hcr : '\r' ∉ p)
    (a : List Char) : occAux p (stripCR a) 0 = occAux p a 0 := by
  unfold stripCR
  by_cases hl : a.getLast? = some '\r'
  · rw [if_pos hl]
    have hane : a ≠ [] := by
      intro h; subst h; simp at hl
    have hsplit : a = a.dropLast ++ ['\r'] := by
      have h1 := List.dropLast_concat_getLast hane
      have h2 : a.getLast hane = '\r' := by
        have := List.getLast?_eq_getLast a hane
        rw [hl] at this
        exact (Option.some.inj this).symm
      rw [← h2]
      exact h1.symm
    conv_rhs => rw [hsplit]
    rw [occSplit p '\r' hp hcr a.dropLast 0 [] (by omega)]
    rw [occ_head_avoid p '\r' hp hcr []]
    show occAux p a.dropLast 0 = occAux p a.dropLast 0 + occAux p [] 0
    show occAux p a.dropLast 0 = occAux p a.dropLast 0 + 0
    omega
  · rw [if_neg hl]

theorem exists_nl_split (f : List Char) (hmem : '\n' ∈ f) :
    ∃ a b, f = a ++ '\n' :: b ∧ '\n' ∉ a := by
  induction f with
  | nil => simp at hmem
  | cons c rest ih =>
      by_cases hc : c = '\n'
      · subst hc
        exact ⟨[], rest, rfl, by simp⟩
      · have hmem' : '\n' ∈ rest := by
          rcases List.mem_cons.mp hmem with h | h
          · exact absurd h.symm hc
          · exact h
        obtain ⟨a, b, heq, hna⟩ := ih hmem'
        refine ⟨c :: a, b, by rw [heq]; rfl, ?_⟩
        intro hmm
        rcases List.mem_cons.mp hmm with h | h
        · exact hc h.symm
        · exact hna h

/-- The per-line occurrence counts sum to the whole-file count, for a
nonempty needle containing neither `\n` nor `\r`. -/
theorem countOccs_lines (p : List Char) (hp : p ≠ []) (hnl : '\n' ∉ p)
    (hcr : '\r' ∉ p) :
    ∀ (n : Nat) (f : List Char), f.length ≤ n →
      ((rustLines f).map (fun l => occAux p l 0)).sum = occAux p f 0 := by
  intro n
  induction n with
  | zero =>
      intro f hf
      have : f = [] := by
        cases f with
        | nil => rfl
        | cons c cs => simp at hf
      subst this
      rfl
  | succ n ihn =>
      intro f hf
      by_cases hmem : '\n' ∈ f
      · obtain ⟨a, b, rfl, hna⟩ := exists_nl_split f hmem
        rw [rustLines_append_nl a b hna]
        simp only [List.map_cons, List.sum_cons]
        rw [occ_stripCR p hp hcr a]
        have hlb : b.length ≤ n := by
          rw [List.length_append] at hf
          simp at hf
          omega
        rw [ihn b hlb]
        rw [occSplit p '\n' hp hnl a 0 b (by omega)]
        rw [occ_head_avoid p '\n' hp hnl b]
      · rw [rustLines_noNl f hmem]
        by_cases hfn : f = []
        · subst hfn; rfl
        · rw [if_neg hfn]
          simp

/-! ### C5 -/

theorem searchInFileLit_true (p f : List Char) (maxR : Nat) (h : ¬ maxR ≤ 0) :
    searchInFileLit true p f maxR 0 = searchFileGo p maxR (rustLines f) 0 0 := by
  unfold searchInFileLit
  rw [if_neg h]
  simp

/-- C5 counterexample.  The literal pattern `"\n"` occurs once in the file
`"a\nb"`, but the per-line search reports zero hits: patterns containing a
newline can never match. -/
theorem C5_counterexample :
    (searchPatternFileLit true (chars "\n") (chars "a\nb") 50).hits.length = 0
      ∧ countOccs (chars "\n") (chars "a\nb") = 1
      ∧ min (countOccs (chars "\n") (chars "a\nb")) 50 = 1
      ∧ (0 : Nat) ≠ 1 := by
  refine ⟨?_, ?_, ?_, ?_⟩ <;> decide

/-- C5 amended.  For a NONEMPTY literal pattern containing neither `\n` nor
`\r`, searched case-sensitively in a single file: the number of hits equals
the count of non-overlapping occurrences capped at `max_results`, and the
`truncated` flag is set exactly when the number of hits equals
`max_results`. -/
theorem C5_literal_search (f p : List Char) (maxR : Nat) (hp : p ≠ [])
    (hnl : '\n' ∉ p) (hcr : '\r' ∉ p) :
    (searchPatternFileLit true p f maxR).hits.length
        = min (countOccs p f) maxR
      ∧ ((searchPatternFileLit true p f maxR).truncated = true
        ↔ (searchPatternFileLit true p f maxR).hits.length = maxR) := by
  have hlen : (searchInFileLit true p f maxR 0).length
      = min (countOccs p f) maxR := by
    by_cases h0 : maxR ≤ 0
    · unfold searchInFileLit
      rw [if_pos h0]
      have : maxR = 0 := by omega
      subst this
      simp
    · rw [searchInFileLit_true p f maxR h0]
      rw [searchFileGo_length p maxR (isEmpty_false_of_ne_nil hp)
        (rustLines f) 0 0 (by omega)]
      rw [countOccs_lines p hp hnl hcr f.length f (Nat.le_refl _)]
      show min (occAux p f 0) (maxR - 0) = min (countOccs p f) maxR
      rw [Nat.sub_zero]
      rfl
  refine ⟨hlen, ?_⟩
  show decide (maxR ≤ (searchInFileLit true p f maxR 0).length) = true ↔ _
  simp only [decide_eq_true_eq]
  have hle : (searchInFileLit true p f maxR 0).length ≤ maxR := by
    rw [hlen]; omega
  show maxR ≤ (searchInFileLit true p f maxR 0).length
    ↔ (searchInFileLit true p f maxR 0).length = maxR
  omega

/-- C5 witness: pattern `"o"` in `"foo boo\nmoo"` with `max_results = 4`. -/
theorem C5_witness :
    (searchPatternFileLit true (chars "o") (chars "foo boo\nmoo") 4).hits.length
      = min (countOccs (chars "o") (chars "foo boo\nmoo")) 4 :=
  (C5_literal_search (chars "foo boo\nmoo") (chars "o") 4 (by decide)
    (by decide) (by decide)).1

end SerenaRS
